import Mathlib

/-!
Verification of the sprite-sheet cutter core pipeline.

The definitions below are a shallow embedding of the Python sources:
`src/background_remover.py`, `src/grid_detector.py`, `src/sprite_cropper.py`
and `src/config.py`.  An image is a row-major list of rows of RGBA pixels
(byte channels as natural numbers).  Python integers are modelled by `Int`
where subtraction or signed comparison occurs; the float comparisons of
`grid_detector.py` against the constants 0.95, 0.02, 0.05 and 0.25 are
modelled by the exact rational tests (`20*count > 19*len`, `50*count < len`,
`total/20`, `4*span ≥ total`), which agree with the double-precision code
for all realistic image sizes.  The resize scale arithmetic of
`sprite_cropper.py` is instead modelled by exact IEEE 754 binary64
round-to-nearest-even arithmetic, because there flooring makes the rational
and the float readings diverge.
-/

/-- One RGBA pixel; channels are bytes 0..255 stored as naturals. -/
structure Pixel where
  r : Nat
  g : Nat
  b : Nat
  a : Nat
deriving DecidableEq, Repr

/-- A pixel grid: list of rows, row-major, as produced by np.array on an image. -/
abbrev Grid := List (List Pixel)

/-- Embedding of the `Config` dataclass from src/config.py. -/
structure Config where
  white_threshold : Int
  grid_line_threshold : Int
  grid_line_min_coverage : Rat
  padding : Int
  output_size : Int
  flood_fill_tolerance : Int
  min_sprite_pixels : Int
  gap_min_width : Int
deriving DecidableEq, Repr

/-- The default field values of the `Config` dataclass. -/
def defaultConfig : Config :=
  { white_threshold := 230
    grid_line_threshold := 80
    grid_line_min_coverage := 4 / 5
    padding := 10
    output_size := 512
    flood_fill_tolerance := 25
    min_sprite_pixels := 200
    gap_min_width := 8 }

/-- Number of rows of the grid (`h` in the Python sources). -/
def height (g : Grid) : Nat := g.length

/-- Number of columns of the grid (`w`); numpy arrays are rectangular, so the
first row's length is the width. -/
def width (g : Grid) : Nat := (g.headD []).length

/-- The grid is rectangular, as every decoded numpy image array is. -/
def Rectangular (g : Grid) : Prop := ∀ row ∈ g, row.length = width g

/-- Pixel read `arr[y, x]`, with an all-zero pixel out of range. -/
def pixAt (g : Grid) (x y : Nat) : Pixel := (g.getD y []).getD x ⟨0, 0, 0, 0⟩

/-- The fully transparent pixel used for fresh canvases. -/
def transparent : Pixel := ⟨0, 0, 0, 0⟩

/-! ## Background remover (src/background_remover.py)

`remove_background` seeds a BFS flood fill from every near-white border
pixel and zeroes the alpha channel of every reached pixel. -/

/-- The `_is_near_white` closure: every colour channel at least `white_threshold`. -/
def nearWhite (cfg : Config) (p : Pixel) : Bool :=
  decide (cfg.white_threshold ≤ (p.r : Int)) &&
  decide (cfg.white_threshold ≤ (p.g : Int)) &&
  decide (cfg.white_threshold ≤ (p.b : Int))

/-- The `_within_tolerance` closure: every colour channel at least
`white_threshold - flood_fill_tolerance`. -/
def withinTol (cfg : Config) (p : Pixel) : Bool :=
  decide (cfg.white_threshold - cfg.flood_fill_tolerance ≤ (p.r : Int)) &&
  decide (cfg.white_threshold - cfg.flood_fill_tolerance ≤ (p.g : Int)) &&
  decide (cfg.white_threshold - cfg.flood_fill_tolerance ≤ (p.b : Int))

/-- A position `(x, y)` in the grid. -/
abbrev Pos := Nat × Nat

/-- The in-bounds 4-neighbours of a pixel, in the order the Python BFS
enumerates `((-1,0),(1,0),(0,-1),(0,1))`, including the `0 <= nx < w` and
`0 <= ny < h` guards. -/
def nbrs (w h : Nat) (c : Pos) : List Pos :=
  (([((c.1 : Int) - 1, (c.2 : Int)), ((c.1 : Int) + 1, (c.2 : Int)),
     ((c.1 : Int), (c.2 : Int) - 1), ((c.1 : Int), (c.2 : Int) + 1)]).filter
    (fun q => decide (0 ≤ q.1) && decide (q.1 < (w : Int)) &&
              decide (0 ≤ q.2) && decide (q.2 < (h : Int)))).map
    (fun q => (q.1.toNat, q.2.toNat))

/-- The border-seed collection loops: every pixel of row `0`, row `h-1`,
column `0` and column `w-1` that is near-white, in source order. -/
def borderSeeds (nearF : Pos → Bool) (w h : Nat) : List Pos :=
  ((List.range w).flatMap fun x =>
    ([(0 : Nat), h - 1].filter fun y => nearF (x, y)).map fun y => (x, y)) ++
  (((List.range (h - 2)).map (· + 1)).flatMap fun y =>
    ([(0 : Nat), w - 1].filter fun x => nearF (x, y)).map fun x => (x, y))

/-- One iteration of the seed loop: mark the seed visited; if it is
near-white, add it to the background mask. State is (visited, mask). -/
def seedStep (nearF : Pos → Bool) (vm : List Pos × List Pos) (s : Pos) :
    List Pos × List Pos :=
  if s ∈ vm.1 then vm
  else if nearF s then (s :: vm.1, s :: vm.2) else (s :: vm.1, vm.2)

/-- Processing one neighbour inside the BFS loop: a not-yet-visited neighbour
is marked visited, and masked and enqueued when within tolerance.  State is
(visited, mask, newly enqueued). -/
def bfsStepNbr (tolF : Pos → Bool) (st : List Pos × List Pos × List Pos)
    (q : Pos) : List Pos × List Pos × List Pos :=
  if q ∈ st.1 then st
  else if tolF q then (q :: st.1, q :: st.2.1, st.2.2 ++ [q])
  else (q :: st.1, st.2.1, st.2.2)

/-- The `while queue:` BFS loop, run with explicit fuel (the Python loop
terminates because every enqueued pixel was freshly marked visited). -/
def bfsLoop (tolF : Pos → Bool) (w h : Nat) :
    Nat → List Pos → List Pos → List Pos → List Pos × List Pos
  | 0, _, vis, msk => (vis, msk)
  | _ + 1, [], vis, msk => (vis, msk)
  | fuel + 1, c :: rest, vis, msk =>
    let st := (nbrs w h c).foldl (bfsStepNbr tolF) (vis, msk, [])
    bfsLoop tolF w h fuel (rest ++ st.2.2) st.1 st.2.1

/-- The whole flood fill of `remove_background`, producing the background
mask.  It reads the image only through the two pixel predicates. -/
def bgMaskCore (nearF tolF : Pos → Bool) (w h : Nat) : List Pos :=
  let seeds := borderSeeds nearF w h
  let vm := seeds.foldl (seedStep nearF) ([], [])
  let q0 := seeds.filter (fun s => decide (s ∈ vm.2))
  (bfsLoop tolF w h (h * w + (seeds.length + 1)) q0 vm.1 vm.2).2

/-- Background mask of a grid: seeds and expansion use `_is_near_white` and
`_within_tolerance` on the pixel array. -/
def bgMask (g : Grid) (cfg : Config) : List Pos :=
  bgMaskCore (fun s => nearWhite cfg (pixAt g s.1 s.2))
    (fun s => withinTol cfg (pixAt g s.1 s.2)) (width g) (height g)

/-- Application of `arr[bg_mask, 3] = 0` to one row (x is the running column). -/
def maskRow (m : List Pos) (y : Nat) : Nat → List Pixel → List Pixel
  | _, [] => []
  | x, p :: rest =>
    (if (x, y) ∈ m then { p with a := 0 } else p) :: maskRow m y (x + 1) rest

/-- Application of `arr[bg_mask, 3] = 0` to all rows (y is the running row). -/
def maskRows (m : List Pos) : Nat → Grid → Grid
  | _, [] => []
  | y, row :: rest => maskRow m y 0 row :: maskRows m (y + 1) rest

/-- Embedding of `remove_background(img, cfg)`: flood-fill from the border
and zero the alpha of every masked pixel. -/
def removeBackground (g : Grid) (cfg : Config) : Grid :=
  maskRows (bgMask g cfg) 0 g

/-! ## Grid detector (src/grid_detector.py) -/

/-- A cell rectangle `(x, y, w, h)`. -/
abbrev Rect := Nat × Nat × Nat × Nat

/-- Brightness test `brightness < white_threshold` with brightness the mean of
the three colour channels, read exactly: `(r+g+b) < 3 * white_threshold`. -/
def isContent (cfg : Config) (p : Pixel) : Bool :=
  decide (((p.r + p.g + p.b : Nat) : Int) < 3 * cfg.white_threshold)

/-- Number of content pixels of row `y` (over the `w` columns). -/
def rowContentCount (g : Grid) (cfg : Config) (y : Nat) : Nat :=
  (List.range (width g)).countP fun x => isContent cfg (pixAt g x y)

/-- Number of content pixels of column `x` (over the `h` rows). -/
def colContentCount (g : Grid) (cfg : Config) (x : Nat) : Nat :=
  (List.range (height g)).countP fun y => isContent cfg (pixAt g x y)

/-- The `filled_row_mask`: fraction of content pixels in the row exceeds 0.95,
read exactly as `20 * count > 19 * w`. -/
def filledRowMask (g : Grid) (cfg : Config) : List Bool :=
  (List.range (height g)).map fun y =>
    decide (19 * width g < 20 * rowContentCount g cfg y)

/-- The `filled_col_mask`: fraction of content pixels in the column exceeds
0.95, read exactly as `20 * count > 19 * h`. -/
def filledColMask (g : Grid) (cfg : Config) : List Bool :=
  (List.range (width g)).map fun x =>
    decide (19 * height g < 20 * colContentCount g cfg x)

/-- Loop body of `_find_bands`: `i` is the running index, `cur` the start of
the band currently open (if any), `acc` the closed bands so far. -/
def findBandsAux : List Bool → Nat → Option Nat → List (Nat × Nat) →
    List (Nat × Nat)
  | [], _, none, acc => acc
  | [], i, some s, acc => acc ++ [(s, i)]
  | v :: rest, i, none, acc =>
    findBandsAux rest (i + 1) (if v then some i else none) acc
  | v :: rest, i, some s, acc =>
    if v then findBandsAux rest (i + 1) (some s) acc
    else findBandsAux rest (i + 1) none (acc ++ [(s, i)])

/-- Embedding of `_find_bands`: maximal `(start, end)` runs of True values. -/
def findBands (mask : List Bool) : List (Nat × Nat) := findBandsAux mask 0 none []

/-- The intervals strictly between consecutive bands, kept when wider than
10 pixels (the middle loop of `_bands_to_gap_intervals`). -/
def gapsBetween : List (Nat × Nat) → List (Nat × Nat)
  | b1 :: b2 :: rest =>
    (if (10 : Int) < (b2.1 : Int) - (b1.2 : Int) then [(b1.2, b2.1)] else []) ++
    gapsBetween (b2 :: rest)
  | _ => []

/-- The glued interval list of `_bands_to_gap_intervals` for a nonempty band
list: the leading interval kept when the first band starts after pixel 10,
the between-band gaps wider than 10, and the trailing interval kept when the
last band ends more than 10 pixels before the axis end. -/
def gapIntervalsOf (b : Nat × Nat) (rest : List (Nat × Nat)) (total : Nat) :
    List (Nat × Nat) :=
  (if 10 < b.1 then [((0 : Nat), b.1)] else []) ++ gapsBetween (b :: rest) ++
  (if (((b :: rest).getLast (List.cons_ne_nil b rest)).2 : Int) <
      (total : Int) - 10 then
    [(((b :: rest).getLast (List.cons_ne_nil b rest)).2, total)]
  else [])

/-- Embedding of `_bands_to_gap_intervals`: cell intervals sitting between
separator bands (leading interval, gaps between bands, trailing interval);
`none` when no interval survives. -/
def bandsToGapIntervals (bands : List (Nat × Nat)) (total : Nat) :
    Option (List (Nat × Nat)) :=
  match bands with
  | [] => none
  | b :: rest =>
    if (gapIntervalsOf b rest total).isEmpty then none
    else some (gapIntervalsOf b rest total)

/-- The common cell-building double loop: the Cartesian product of row
intervals and column intervals, keeping rectangles wider and taller than
10 pixels.  Used by `_detect_separator_lines` and (through `_build_cells`)
by `_detect_white_gaps`. -/
def cellsOf (hIvs vIvs : List (Nat × Nat)) : List Rect :=
  hIvs.flatMap fun yi => vIvs.filterMap fun xi =>
    if 10 < (xi.2 : Int) - (xi.1 : Int) ∧ 10 < (yi.2 : Int) - (yi.1 : Int) then
      some (xi.1, yi.1, xi.2 - xi.1, yi.2 - yi.1)
    else none

/-- Embedding of `_detect_separator_lines` (strategy 1). -/
def detectSeparatorLines (g : Grid) (cfg : Config) : Option (List Rect) :=
  let h := height g
  let w := width g
  let hBands := (findBands (filledRowMask g cfg)).filter fun b =>
    decide ((b.2 : Int) - (b.1 : Int) ≤ 20)
  let vBands := (findBands (filledColMask g cfg)).filter fun b =>
    decide ((b.2 : Int) - (b.1 : Int) ≤ 20)
  if hBands.isEmpty && vBands.isEmpty then none
  else
    let hIntervals := (bandsToGapIntervals hBands h).getD [(0, h)]
    let vIntervals := (bandsToGapIntervals vBands w).getD [(0, w)]
    let cells := cellsOf hIntervals vIntervals
    if 1 < cells.length then some cells else none

/-- The `row_content < 0.02` gap mask, read exactly as `50 * count < w`. -/
def rowGapMask (g : Grid) (cfg : Config) : List Bool :=
  (List.range (height g)).map fun y =>
    decide (50 * rowContentCount g cfg y < width g)

/-- The `col_content < 0.02` gap mask, read exactly as `50 * count < h`. -/
def colGapMask (g : Grid) (cfg : Config) : List Bool :=
  (List.range (width g)).map fun x =>
    decide (50 * colContentCount g cfg x < height g)

/-- Embedding of `_find_gap_bands`: bands of the gap mask at least
`min_width` wide and clear of the 5% edge margins (margin is
`int(total * 0.05) = total / 20`). -/
def findGapBands (mask : List Bool) (minWidth : Int) (total : Nat) :
    List (Nat × Nat) :=
  (findBands mask).filter fun b =>
    decide (minWidth ≤ (b.2 : Int) - (b.1 : Int)) &&
    decide (total / 20 < b.1) && decide (b.2 < total - total / 20)

/-- Embedding of `_gaps_to_splits`: band midpoints plus the axis endpoints;
`none` (and an empty list) yield the unsplit axis. -/
def gapsToSplits (gaps : Option (List (Nat × Nat))) (total : Nat) : List Nat :=
  match gaps with
  | none => [0, total]
  | some [] => [0, total]
  | some gs => 0 :: (gs.map (fun b => (b.1 + b.2) / 2) ++ [total])

/-- Embedding of `_splits_are_balanced` with its default `min_ratio = 0.25`
(the only ratio the detector uses): every span between consecutive splits is
at least a quarter of the axis, read exactly as `4 * span ≥ total`. -/
def splitsAreBalanced : List Nat → Nat → Bool
  | s1 :: s2 :: rest, total =>
    decide ((total : Int) ≤ 4 * ((s2 : Int) - (s1 : Int))) &&
    splitsAreBalanced (s2 :: rest) total
  | _, _ => true

/-- Stable descending comparison on gap width, matching
`sorted(gaps, key=lambda g: g[1] - g[0], reverse=True)`. -/
def widthDesc (a b : Nat × Nat) : Bool :=
  decide ((b.2 : Int) - (b.1 : Int) ≤ (a.2 : Int) - (a.1 : Int))

/-- Ascending comparison on gap start, matching `sorted(..., key=lambda g: g[0])`. -/
def startAsc (a b : Nat × Nat) : Bool := decide (a.1 ≤ b.1)

/-- One iteration of the `for n in (2, 1)` loop of `_select_best_gaps`. -/
def tryGapCount (sortedGaps : List (Nat × Nat)) (total n : Nat) :
    Option (List (Nat × Nat)) :=
  if sortedGaps.length < n then none
  else
    let candidate := (sortedGaps.take n).mergeSort startAsc
    if splitsAreBalanced (gapsToSplits (some candidate) total) total then
      some candidate
    else none

/-- Embedding of `_select_best_gaps`: try the 2 widest gaps, then the single
widest, returning the first candidate whose splits are balanced. -/
def selectBestGaps (gaps : List (Nat × Nat)) (total : Nat) :
    Option (List (Nat × Nat)) :=
  match gaps with
  | [] => none
  | _ :: _ =>
    let sortedGaps := gaps.mergeSort widthDesc
    match tryGapCount sortedGaps total 2 with
    | some c => some c
    | none => tryGapCount sortedGaps total 1

/-- Consecutive pairs of a list of split positions, as enumerated by the
index loops of `_build_cells`. -/
def pairs : List Nat → List (Nat × Nat)
  | a :: b :: rest => (a, b) :: pairs (b :: rest)
  | _ => []

/-- Embedding of `_build_cells`. -/
def buildCells (hSplits vSplits : List Nat) : List Rect :=
  cellsOf (pairs hSplits) (pairs vSplits)

/-- Embedding of `_detect_white_gaps` (strategy 2). -/
def detectWhiteGaps (g : Grid) (cfg : Config) : Option (List Rect) :=
  let h := height g
  let w := width g
  let hGaps := findGapBands (rowGapMask g cfg) cfg.gap_min_width h
  let vGaps := findGapBands (colGapMask g cfg) cfg.gap_min_width w
  if hGaps.isEmpty && vGaps.isEmpty then none
  else
    let hSel := selectBestGaps hGaps h
    let vSel := selectBestGaps vGaps w
    if hSel.isNone && vSel.isNone then none
    else
      let cells := buildCells (gapsToSplits hSel h) (gapsToSplits vSel w)
      if 1 < cells.length then some cells else none

/-- Embedding of `detect_cells`: separator lines first, then white gaps,
then the whole image as a single cell. -/
def detectCells (g : Grid) (cfg : Config) : List Rect :=
  match detectSeparatorLines g cfg with
  | some cells => cells
  | none =>
    match detectWhiteGaps g cfg with
    | some cells => cells
    | none => [(0, 0, width g, height g)]

/-! ## Sprite cropper / resizer (src/sprite_cropper.py) -/

/-- Count of non-transparent pixels, `np.count_nonzero(alpha)`. -/
def countVisible (g : Grid) : Nat :=
  (g.flatMap id).countP fun p => decide (p.a ≠ 0)

/-- Whether a row has any non-transparent pixel (`np.any(alpha > 0, axis=1)`). -/
def rowHasVisible (g : Grid) (y : Nat) : Bool :=
  (List.range (width g)).any fun x => decide (0 < (pixAt g x y).a)

/-- Whether a column has any non-transparent pixel (`np.any(alpha > 0, axis=0)`). -/
def colHasVisible (g : Grid) (x : Nat) : Bool :=
  (List.range (height g)).any fun y => decide (0 < (pixAt g x y).a)

/-- The `np.argmax` of a boolean list: index of the first True, 0 if none. -/
def argmaxB (l : List Bool) : Nat := (l.findIdx? id).getD 0

/-- Embedding of `crop_sprite(img, cfg)`: `none` when fewer visible pixels
than `min_sprite_pixels`, otherwise the padded bounding box crop. -/
def cropSprite (g : Grid) (cfg : Config) : Option Grid :=
  if (countVisible g : Int) < cfg.min_sprite_pixels then none
  else
    let h := height g
    let w := width g
    let rows := (List.range h).map fun y => rowHasVisible g y
    let cols := (List.range w).map fun x => colHasVisible g x
    let yMin : Int := argmaxB rows
    let yMax : Int := (h : Int) - 1 - (argmaxB rows.reverse : Int)
    let xMin : Int := argmaxB cols
    let xMax : Int := (w : Int) - 1 - (argmaxB cols.reverse : Int)
    let yMin' := (max 0 (yMin - cfg.padding)).toNat
    let yMax' := (min ((h : Int) - 1) (yMax + cfg.padding)).toNat
    let xMin' := (max 0 (xMin - cfg.padding)).toNat
    let xMax' := (min ((w : Int) - 1) (xMax + cfg.padding)).toNat
    some (((g.drop yMin').take (yMax' + 1 - yMin')).map fun row =>
      (row.drop xMin').take (xMax' + 1 - xMin'))

/-! The resize scale of `resize_sprite` is computed in Python double
precision: `scale = min(size / cw, size / ch)` and `int(cw * scale)`,
`int(ch * scale)`.  Flooring makes the double and the exact-rational
readings diverge (for example `int(49 * (512 / 49))` is 511, not 512), so
the helpers below model IEEE 754 binary64 arithmetic exactly: a nonnegative
double is the pair `(m, e)` of its integer mantissa and binary exponent with
value `m * 2 ^ e`, and division and multiplication round the exact rational
result to 53 significant bits, ties to even (normal range, which covers all
realistic sprite dimensions). -/

/-- Fuelled floor of the base-two logarithm. -/
def log2Fuel : Nat → Nat → Nat
  | 0, _ => 0
  | fuel + 1, n => if n < 2 then 0 else log2Fuel fuel (n / 2) + 1

/-- Floor of the base-two logarithm of a natural (0 for 0). -/
def natLog2 (n : Nat) : Nat := log2Fuel n n

/-- First shift (at least the start value) that lifts `p` to at least `q`. -/
def shiftSearch (p q : Nat) : Nat → Nat → Nat
  | 0, s => s
  | fuel + 1, s => if q ≤ p * 2 ^ s then s else shiftSearch p q fuel (s + 1)

/-- Least `s ≥ 1` with `q ≤ p * 2 ^ s`, for `1 ≤ p < q` (the fuel
`natLog2 q + 2` always suffices). -/
def smallestShift (p q : Nat) : Nat := shiftSearch p q (natLog2 q + 2) 1

/-- Floor of the base-two logarithm of the fraction `p / q` (`p, q ≥ 1`). -/
def floorLog2Frac (p q : Nat) : Int :=
  if q ≤ p then (natLog2 (p / q) : Int) else -(smallestShift p q : Int)

/-- The binary64 value nearest to `p / q` (round to nearest, ties to even):
the exponent is chosen so that the rounded mantissa has 53 bits, and a
mantissa overflow to `2 ^ 53` renormalises. -/
def roundRat (p q : Nat) : Nat × Int :=
  if p = 0 ∨ q = 0 then (0, 0)
  else
    let e : Int := floorLog2Frac p q - 52
    let num := if 0 ≤ e then p else p * 2 ^ (-e).toNat
    let den := if 0 ≤ e then q * 2 ^ e.toNat else q
    let m0 := num / den
    let r := num % den
    let m := if den < 2 * r ∨ (2 * r = den ∧ m0 % 2 = 1) then m0 + 1 else m0
    if m = 2 ^ 53 then (2 ^ 52, e + 1) else (m, e)

/-- Double-precision division `a / b` of two Python integers. -/
def divD (a b : Nat) : Nat × Int := roundRat a b

/-- Double-precision product of a Python integer and a double (the exact
product is rounded once, as IEEE multiplication does). -/
def mulNatD (c : Nat) (d : Nat × Int) : Nat × Int :=
  ((roundRat (c * d.1) 1).1, (roundRat (c * d.1) 1).2 + d.2)

/-- Exact value comparison of two doubles (shift to a common exponent). -/
def leD (d1 d2 : Nat × Int) : Bool :=
  if d1.2 ≤ d2.2 then decide (d1.1 ≤ d2.1 * 2 ^ (d2.2 - d1.2).toNat)
  else decide (d1.1 * 2 ^ (d1.2 - d2.2).toNat ≤ d2.1)

/-- Python `min` on two doubles (the first argument on ties). -/
def minD (d1 d2 : Nat × Int) : Nat × Int := if leD d1 d2 then d1 else d2

/-- Python `int()` of a nonnegative double: the floor of its exact value. -/
def intD (d : Nat × Int) : Nat :=
  if 0 ≤ d.2 then d.1 * 2 ^ d.2.toNat else d.1 / 2 ^ (-d.2).toNat

/-- The scaled sprite dimensions of `resize_sprite`:
`scale = min(size/cw, size/ch)`, `new_w = max(1, int(cw*scale))`,
`new_h = max(1, int(ch*scale))`, with every float operation modelled as
exact binary64 arithmetic. -/
def resizeDims (cw ch size : Nat) : Nat × Nat :=
  (max 1 (intD (mulNatD cw (minD (divD size cw) (divD size ch)))),
   max 1 (intD (mulNatD ch (minD (divD size cw) (divD size ch)))))

/-- The paste offsets of `resize_sprite`:
`((size - new_w) // 2, (size - new_h) // 2)` (Python floor division). -/
def pasteOffsets (cw ch size : Nat) : Int × Int :=
  (((size : Int) - ((resizeDims cw ch size).1 : Int)).fdiv 2,
   ((size : Int) - ((resizeDims cw ch size).2 : Int)).fdiv 2)

/-- Whether canvas position `(x, y)` falls inside the pasted
`new_w x new_h` sprite box placed at the paste offsets. -/
def inPaste (cw ch size x y : Nat) : Bool :=
  decide ((pasteOffsets cw ch size).1 ≤ (x : Int)) &&
  decide ((x : Int) <
    (pasteOffsets cw ch size).1 + ((resizeDims cw ch size).1 : Int)) &&
  decide ((pasteOffsets cw ch size).2 ≤ (y : Int)) &&
  decide ((y : Int) <
    (pasteOffsets cw ch size).2 + ((resizeDims cw ch size).2 : Int))

/-- Embedding of `resize_sprite(img, size)`.  The Lanczos resampling filter of
PIL is an external library routine over floats; it is abstracted as the
`resample` argument producing the `new_w x new_h` resized sprite.  The canvas
construction and paste offsets are modelled exactly: the pixel at `(x, y)` of
the `size x size` canvas comes from the pasted sprite when `(x, y)` lies in the
pasted region and stays fully transparent otherwise. -/
def resizeSprite (resample : Grid → Nat → Nat → Grid) (img : Grid)
    (size : Nat) : Grid :=
  let cw := width img
  let ch := height img
  let resized := resample img (resizeDims cw ch size).1 (resizeDims cw ch size).2
  (List.range size).map fun y => (List.range size).map fun x =>
    if inPaste cw ch size x y then
      pixAt resized ((x : Int) - (pasteOffsets cw ch size).1).toNat
        ((y : Int) - (pasteOffsets cw ch size).2).toNat
    else transparent

/-! ## Reachability specification for the flood fill

`TolReach g cfg p` holds when there is a 4-connected path of pixels, all
satisfying the within-tolerance predicate, from `p` to a border pixel of the
grid.  This is the claim-side notion used to state which pixels the
background remover may mask. -/

/-- Two positions are 4-adjacent. -/
def adj (p q : Pos) : Prop :=
  (p.2 = q.2 ∧ (p.1 + 1 = q.1 ∨ q.1 + 1 = p.1)) ∨
  (p.1 = q.1 ∧ (p.2 + 1 = q.2 ∨ q.2 + 1 = p.2))

/-- The position lies on one of the four image borders. -/
def onBorder (w h : Nat) (p : Pos) : Prop :=
  p.1 = 0 ∨ p.1 = w - 1 ∨ p.2 = 0 ∨ p.2 = h - 1

/-- A 4-connected path of within-tolerance pixels connects `p` to some border
pixel (every pixel of the path is in bounds and within tolerance). -/
inductive TolReach (g : Grid) (cfg : Config) : Pos → Prop
  | base (p : Pos) (hx : p.1 < width g) (hy : p.2 < height g)
      (hb : onBorder (width g) (height g) p)
      (ht : withinTol cfg (pixAt g p.1 p.2) = true) : TolReach g cfg p
  | step (p q : Pos) (hq : TolReach g cfg q) (ha : adj p q)
      (hx : p.1 < width g) (hy : p.2 < height g)
      (ht : withinTol cfg (pixAt g p.1 p.2) = true) : TolReach g cfg p

/-! ## Helper lemmas about the detector driver -/

/-- Strategy 1 only succeeds with more than one rectangle. -/
theorem sepLines_some_len {g : Grid} {cfg : Config} {cs : List Rect}
    (h : detectSeparatorLines g cfg = some cs) : 1 < cs.length := by
  unfold detectSeparatorLines at h
  dsimp only at h
  split at h
  · exact absurd h (by simp)
  · split at h
    · next hlen => cases h; exact hlen
    · exact absurd h (by simp)

/-- Strategy 2 only succeeds with more than one rectangle. -/
theorem whiteGaps_some_len {g : Grid} {cfg : Config} {cs : List Rect}
    (h : detectWhiteGaps g cfg = some cs) : 1 < cs.length := by
  unfold detectWhiteGaps at h
  dsimp only at h
  split at h
  · exact absurd h (by simp)
  · split at h
    · exact absurd h (by simp)
    · split at h
      · next hlen => cases h; exact hlen
      · exact absurd h (by simp)

/-- C2: `detect_cells` never fails and returns at least one rectangle; when
both the separator-line strategy and the white-gap strategy fail the result
is exactly the single full-image rectangle `(0, 0, W, H)`. -/
theorem detectCells_total (g : Grid) (cfg : Config) :
    1 ≤ (detectCells g cfg).length ∧
    (detectSeparatorLines g cfg = none → detectWhiteGaps g cfg = none →
      detectCells g cfg = [(0, 0, width g, height g)]) := by
  constructor
  · cases hs : detectSeparatorLines g cfg with
    | some cs =>
      have h2 := sepLines_some_len hs
      have he : detectCells g cfg = cs := by unfold detectCells; rw [hs]
      rw [he]; omega
    | none =>
      cases hw : detectWhiteGaps g cfg with
      | some cs =>
        have h2 := whiteGaps_some_len hw
        have he : detectCells g cfg = cs := by unfold detectCells; rw [hs, hw]
        rw [he]; omega
      | none =>
        have he : detectCells g cfg = [(0, 0, width g, height g)] := by
          unfold detectCells; rw [hs, hw]
        rw [he]; simp
  · intro hs hw
    unfold detectCells
    rw [hs, hw]

/-- A single black pixel: both strategies fail on it. -/
def blackCell : Grid := [[⟨0, 0, 0, 255⟩]]

/-- Witness for C2: on the single black pixel both strategies fail and the
fallback rectangle is returned. -/
theorem detectCells_total_witness :
    detectCells blackCell defaultConfig =
      [(0, 0, width blackCell, height blackCell)] :=
  (detectCells_total blackCell defaultConfig).2 (by decide) (by decide)

/-! ## C8: skip condition of the cropper -/

/-- A 15 x 10 cell whose 150 pixels are all visible. -/
def cell150 : Grid := (List.range 15).map fun _ => List.replicate 10 ⟨0, 0, 0, 255⟩

set_option maxRecDepth 40000 in
/-- C8: `crop` returns the skip result exactly when the number of pixels with
positive alpha is below `min_sprite_pixels`; in particular a cell with 150
visible pixels and the default `min_sprite_pixels = 200` is skipped, and a
non-skipped cell always yields a grid. -/
theorem cropSprite_skip_iff :
    (∀ (g : Grid) (cfg : Config),
      cropSprite g cfg = none ↔
        ((((g.flatMap id).countP fun p => decide (0 < p.a)) : Int) <
          cfg.min_sprite_pixels))
    ∧ cropSprite cell150 defaultConfig = none := by
  constructor
  · intro g cfg
    have hc : ((g.flatMap id).countP fun p => decide (0 < p.a)) = countVisible g :=
      List.countP_congr fun x _ => by simp [Nat.pos_iff_ne_zero]
    rw [hc]
    unfold cropSprite
    split
    · next hlt => simp [hlt]
    · next hge => simp [hge]
  · decide

/-! ## C9: resize geometry -/

/-- The binary64 model reproduces the float truncation of the code: at
`cw = 20, ch = 49, size = 512` the scaled height is `int(49 * (512 / 49))`,
which is 511 in double precision although the exact rational value floors
to 512. -/
theorem resizeDims_truncates_below_exact :
    resizeDims 20 49 512 = (208, 511) ∧ (49 * 512) / 49 = 512 := by
  exact ⟨by decide, by decide⟩

/-- Counterexample to C9 as stated: at `cw = 3, ch = 2, size = 4` the scaled
dimensions produced by `resize_sprite` are `(4, 2)` (the double product
`3 * (4 / 3)` rounds, ties to even, to exactly 4.0), whose ratio 2 differs
from the source aspect ratio 3/2 — flooring breaks exact aspect-ratio
preservation. -/
theorem resize_aspect_counterexample :
    resizeDims 3 2 4 = (4, 2) ∧
      ¬ ((((resizeDims 3 2 4).1 : Rat) / ((resizeDims 3 2 4).2 : Rat)) =
        (3 : Rat) / 2) := by
  have h : resizeDims 3 2 4 = (4, 2) := by decide
  refine ⟨h, ?_⟩
  rw [h]
  norm_num


/-- Reading a pixel of a canvas built by a double range map. -/
theorem pixAt_rangeMap (f : Nat → Nat → Pixel) (n x y : Nat) (hx : x < n)
    (hy : y < n) :
    pixAt ((List.range n).map fun j => (List.range n).map fun i => f i j) x y =
      f x y := by
  simp [pixAt, List.getD_eq_getElem?_getD, List.getElem?_map,
    List.getElem?_range, hx, hy]

/-- C9 (amended): `resize` always returns an exactly `size x size` grid; the
scaled sprite dimensions are the floored `resizeDims` (so the aspect ratio is
preserved only up to flooring — see the counterexample), the sprite is pasted
at offsets `((size - new_w) // 2, (size - new_h) // 2)`, and every canvas
pixel outside the pasted region is fully transparent. -/
theorem resizeSprite_canvas (resample : Grid → Nat → Nat → Grid) (img : Grid)
    (size : Nat) :
    (resizeSprite resample img size).length = size
    ∧ (∀ row ∈ resizeSprite resample img size, row.length = size)
    ∧ (∀ x y : Nat, x < size → y < size →
        inPaste (width img) (height img) size x y = false →
        pixAt (resizeSprite resample img size) x y = transparent) := by
  refine ⟨?_, ?_, ?_⟩
  · simp [resizeSprite]
  · intro row hrow
    unfold resizeSprite at hrow
    dsimp only at hrow
    rw [List.mem_map] at hrow
    obtain ⟨y, _, rfl⟩ := hrow
    simp
  · intro x y hx hy hreg
    unfold resizeSprite
    dsimp only
    rw [pixAt_rangeMap _ size x y hx hy, if_neg]
    simp [hreg]

/-- Witness for C9: a concrete 1 x 2 sprite resized onto a 2 x 2 canvas has a
transparent pixel right of the pasted column. -/
theorem resizeSprite_canvas_witness :
    pixAt (resizeSprite (fun _ _ _ => [[⟨9, 9, 9, 9⟩]])
      [[⟨1, 2, 3, 4⟩], [⟨1, 2, 3, 4⟩]] 2) 1 0 = transparent :=
  (resizeSprite_canvas (fun _ _ _ => [[⟨9, 9, 9, 9⟩]])
    [[⟨1, 2, 3, 4⟩], [⟨1, 2, 3, 4⟩]] 2).2.2 1 0 (by decide) (by decide)
    (by decide)

/-! ## Pointwise description of the alpha masking -/

/-- Masking a row preserves its length. -/
theorem maskRow_length (m : List Pos) (y : Nat) :
    ∀ (x : Nat) (row : List Pixel), (maskRow m y x row).length = row.length := by
  intro x row
  induction row generalizing x with
  | nil => rfl
  | cons p rest ih => simp [maskRow, ih]

/-- Masking a grid preserves the number of rows. -/
theorem maskRows_length (m : List Pos) :
    ∀ (y : Nat) (g : Grid), (maskRows m y g).length = g.length := by
  intro y g
  induction g generalizing y with
  | nil => rfl
  | cons row rest ih => simp [maskRows, ih]

/-- Entry `j` of a masked row. -/
theorem maskRow_getD (m : List Pos) (y : Nat) (row : List Pixel) :
    ∀ (x0 j : Nat) (d : Pixel), j < row.length →
      (maskRow m y x0 row).getD j d =
        if (x0 + j, y) ∈ m then { row.getD j d with a := 0 }
        else row.getD j d := by
  induction row with
  | nil => intro x0 j d h; simp at h
  | cons p rest ih =>
    intro x0 j d h
    cases j with
    | zero => simp [maskRow]
    | succ j =>
      have h' : j < rest.length := by simpa using h
      simp only [maskRow, List.getD_cons_succ]
      rw [ih (x0 + 1) j d h']
      have he : x0 + 1 + j = x0 + (j + 1) := by omega
      rw [he]

/-- Row `i` of a masked grid. -/
theorem maskRows_getD (m : List Pos) (g : Grid) :
    ∀ (y0 i : Nat), i < g.length →
      (maskRows m y0 g).getD i [] = maskRow m (y0 + i) 0 (g.getD i []) := by
  induction g with
  | nil => intro y0 i h; simp at h
  | cons row rest ih =>
    intro y0 i h
    cases i with
    | zero => simp [maskRows]
    | succ i =>
      have h' : i < rest.length := by simpa using h
      simp only [maskRows, List.getD_cons_succ]
      rw [ih (y0 + 1) i h']
      have he : y0 + 1 + i = y0 + (i + 1) := by omega
      rw [he]

/-- The masked grid keeps the width of the input. -/
theorem removeBackground_width (g : Grid) (cfg : Config) :
    width (removeBackground g cfg) = width g := by
  unfold removeBackground width
  cases g with
  | nil => rfl
  | cons row rest => simp [maskRows, maskRow_length]

/-- The masked grid keeps the height of the input. -/
theorem removeBackground_height (g : Grid) (cfg : Config) :
    height (removeBackground g cfg) = height g :=
  maskRows_length _ _ _

/-- C6: `remove_background` keeps the dimensions of the input cell, every
masked pixel keeps its RGB channels and gets alpha 0, and every non-masked
pixel is returned unchanged. -/
theorem removeBackground_frame (g : Grid) (cfg : Config) :
    (removeBackground g cfg).length = g.length
    ∧ (∀ y : Nat,
        ((removeBackground g cfg).getD y []).length = (g.getD y []).length)
    ∧ (∀ x y : Nat, y < g.length → x < (g.getD y []).length →
        pixAt (removeBackground g cfg) x y =
          if (x, y) ∈ bgMask g cfg then { pixAt g x y with a := 0 }
          else pixAt g x y) := by
  refine ⟨maskRows_length _ _ _, ?_, ?_⟩
  · intro y
    by_cases hy : y < g.length
    · unfold removeBackground
      rw [maskRows_getD _ _ _ _ hy, maskRow_length]
    · have h1 : (removeBackground g cfg).getD y [] = [] := by
        apply List.getD_eq_default
        have hh := removeBackground_height g cfg
        unfold height at hh
        omega
      have h2 : g.getD y [] = ([] : List Pixel) :=
        List.getD_eq_default _ _ (by omega)
      rw [h1, h2]
  · intro x y hy hx
    unfold removeBackground pixAt
    rw [maskRows_getD _ _ _ _ hy, maskRow_getD _ _ _ _ _ _ hx]
    simp

/-- A fully white pixel next to dark pixels, for the C6 witness. -/
def c6grid : Grid :=
  [[⟨255, 255, 255, 255⟩, ⟨0, 0, 0, 255⟩], [⟨0, 0, 0, 255⟩, ⟨0, 0, 0, 255⟩]]

/-- Witness for C6 at a concrete cell and pixel. -/
theorem removeBackground_frame_witness :
    pixAt (removeBackground c6grid defaultConfig) 0 0 =
      if ((0, 0) : Pos) ∈ bgMask c6grid defaultConfig then
        { pixAt c6grid 0 0 with a := 0 }
      else pixAt c6grid 0 0 :=
  (removeBackground_frame c6grid defaultConfig).2.2 0 0 (by decide) (by decide)

/-! ## Idempotence of the background remover -/

/-- Out-of-range pixels are unchanged by the masking. -/
theorem pixAt_removeBackground_oob (g : Grid) (cfg : Config) (x y : Nat)
    (h : ¬ (y < g.length ∧ x < (g.getD y []).length)) :
    pixAt (removeBackground g cfg) x y = pixAt g x y := by
  by_cases hy : y < g.length
  · have hx : ¬ x < (g.getD y []).length := fun hx => h ⟨hy, hx⟩
    unfold pixAt removeBackground
    rw [maskRows_getD _ _ _ _ hy]
    have h1 : (maskRow (bgMask g cfg) (0 + y) 0 (g.getD y [])).getD x
        (⟨0, 0, 0, 0⟩ : Pixel) = ⟨0, 0, 0, 0⟩ :=
      List.getD_eq_default _ _ (by rw [maskRow_length]; omega)
    have h2 : (g.getD y []).getD x (⟨0, 0, 0, 0⟩ : Pixel) = ⟨0, 0, 0, 0⟩ :=
      List.getD_eq_default _ _ (by omega)
    rw [h1, h2]
  · have h1 : (maskRows (bgMask g cfg) 0 g).getD y [] = [] :=
      List.getD_eq_default _ _ (by rw [maskRows_length]; omega)
    have h2 : g.getD y [] = ([] : List Pixel) :=
      List.getD_eq_default _ _ (by omega)
    unfold pixAt removeBackground
    rw [h1, h2]

/-- The masking never changes the colour channels of any pixel. -/
theorem pixAt_removeBackground_rgb (g : Grid) (cfg : Config) (x y : Nat) :
    (pixAt (removeBackground g cfg) x y).r = (pixAt g x y).r
    ∧ (pixAt (removeBackground g cfg) x y).g = (pixAt g x y).g
    ∧ (pixAt (removeBackground g cfg) x y).b = (pixAt g x y).b := by
  by_cases h : y < g.length ∧ x < (g.getD y []).length
  · rw [(removeBackground_frame g cfg).2.2 x y h.1 h.2]
    by_cases hm : ((x, y) : Pos) ∈ bgMask g cfg
    · simp [hm]
    · simp [hm]
  · rw [pixAt_removeBackground_oob g cfg x y h]
    exact ⟨rfl, rfl, rfl⟩

/-- `near-white` only depends on the colour channels. -/
theorem nearWhite_rgb (cfg : Config) {p q : Pixel} (hr : p.r = q.r)
    (hg : p.g = q.g) (hb : p.b = q.b) : nearWhite cfg p = nearWhite cfg q := by
  unfold nearWhite
  rw [hr, hg, hb]

/-- `within-tolerance` only depends on the colour channels. -/
theorem withinTol_rgb (cfg : Config) {p q : Pixel} (hr : p.r = q.r)
    (hg : p.g = q.g) (hb : p.b = q.b) : withinTol cfg p = withinTol cfg q := by
  unfold withinTol
  rw [hr, hg, hb]

/-- Re-running the flood fill on the masked output computes the same mask:
the fill reads only colour channels, which the masking preserves. -/
theorem bgMask_removeBackground (g : Grid) (cfg : Config) :
    bgMask (removeBackground g cfg) cfg = bgMask g cfg := by
  unfold bgMask
  have h1 : (fun s : Pos => nearWhite cfg (pixAt (removeBackground g cfg) s.1 s.2)) =
      fun s : Pos => nearWhite cfg (pixAt g s.1 s.2) := by
    funext s
    obtain ⟨hr, hg, hb⟩ := pixAt_removeBackground_rgb g cfg s.1 s.2
    exact nearWhite_rgb cfg hr hg hb
  have h2 : (fun s : Pos => withinTol cfg (pixAt (removeBackground g cfg) s.1 s.2)) =
      fun s : Pos => withinTol cfg (pixAt g s.1 s.2) := by
    funext s
    obtain ⟨hr, hg, hb⟩ := pixAt_removeBackground_rgb g cfg s.1 s.2
    exact withinTol_rgb cfg hr hg hb
  rw [h1, h2, removeBackground_width, removeBackground_height]

/-- Masking a row twice with the same mask is the same as masking once. -/
theorem maskRow_idem (m : List Pos) (y : Nat) :
    ∀ (x : Nat) (row : List Pixel),
      maskRow m y x (maskRow m y x row) = maskRow m y x row := by
  intro x row
  induction row generalizing x with
  | nil => rfl
  | cons p rest ih =>
    simp only [maskRow]
    by_cases hm : ((x, y) : Pos) ∈ m
    · simp [hm, ih]
    · simp [hm, ih]

/-- Masking a grid twice with the same mask is the same as masking once. -/
theorem maskRows_idem (m : List Pos) :
    ∀ (y : Nat) (g : Grid), maskRows m y (maskRows m y g) = maskRows m y g := by
  intro y g
  induction g generalizing y with
  | nil => rfl
  | cons row rest ih => simp [maskRows, maskRow_idem, ih]

/-- C7: `remove_background` is idempotent — applying it to its own output
computes the identical background mask and changes no further pixel. -/
theorem removeBackground_idem (g : Grid) (cfg : Config) :
    removeBackground (removeBackground g cfg) cfg = removeBackground g cfg := by
  have hm := bgMask_removeBackground g cfg
  rw [show removeBackground (removeBackground g cfg) cfg =
      maskRows (bgMask (removeBackground g cfg) cfg) 0 (removeBackground g cfg)
    from rfl, hm,
    show removeBackground g cfg = maskRows (bgMask g cfg) 0 g from rfl]
  exact maskRows_idem _ _ _

/-! ## Soundness of the flood fill (claim C1) -/

/-- Every neighbour produced by `nbrs` is in bounds and 4-adjacent to the
dequeued pixel. -/
theorem nbrs_mem {w h : Nat} {c n : Pos} (hn : n ∈ nbrs w h c) :
    n.1 < w ∧ n.2 < h ∧ adj n c := by
  unfold nbrs at hn
  rw [List.mem_map] at hn
  obtain ⟨q, hq, rfl⟩ := hn
  rw [List.mem_filter] at hq
  obtain ⟨hq1, hq2⟩ := hq
  simp only [Bool.and_eq_true, decide_eq_true_eq] at hq2
  obtain ⟨⟨⟨h1, h2⟩, h3⟩, h4⟩ := hq2
  simp only [List.mem_cons, List.not_mem_nil, or_false] at hq1
  rcases hq1 with rfl | rfl | rfl | rfl
  all_goals
    dsimp only at h1 h2 h3 h4 ⊢
    unfold adj
    dsimp only
    exact ⟨by omega, by omega, by omega⟩

/-- A degenerate axis leaves no in-bounds neighbour at all. -/
theorem nbrs_degenerate {w h : Nat} (hwh : w = 0 ∨ h = 0) (c : Pos) :
    nbrs w h c = [] := by
  unfold nbrs
  have hf : ∀ q ∈ [((c.1 : Int) - 1, (c.2 : Int)), ((c.1 : Int) + 1, (c.2 : Int)),
      ((c.1 : Int), (c.2 : Int) - 1), ((c.1 : Int), (c.2 : Int) + 1)],
      ¬ ((decide (0 ≤ q.1) && decide (q.1 < (w : Int)) &&
        decide (0 ≤ q.2) && decide (q.2 < (h : Int))) = true) := by
    intro q hq
    simp only [List.mem_cons, List.not_mem_nil, or_false] at hq
    rcases hwh with rfl | rfl <;>
      rcases hq with rfl | rfl | rfl | rfl <;>
        (simp only [Bool.and_eq_true, decide_eq_true_eq]; omega)
  rw [List.filter_eq_nil_iff.2 hf]
  rfl

/-- With a nonnegative tolerance, near-white pixels are within tolerance. -/
theorem nearWhite_withinTol {cfg : Config} (htol : 0 ≤ cfg.flood_fill_tolerance)
    {p : Pixel} (hnw : nearWhite cfg p = true) : withinTol cfg p = true := by
  unfold nearWhite at hnw
  unfold withinTol
  simp only [Bool.and_eq_true, decide_eq_true_eq] at hnw ⊢
  omega

/-- Every collected seed pixel is near-white, lies on the border, and is in
bounds unless an axis is degenerate. -/
theorem borderSeeds_spec {nearF : Pos → Bool} {w h : Nat} {p : Pos}
    (hp : p ∈ borderSeeds nearF w h) :
    nearF p = true ∧ onBorder w h p ∧ ((p.1 < w ∧ p.2 < h) ∨ w = 0 ∨ h = 0) := by
  unfold borderSeeds at hp
  rw [List.mem_append] at hp
  rcases hp with hp | hp
  · rw [List.mem_flatMap] at hp
    obtain ⟨x, hx, hp⟩ := hp
    rw [List.mem_range] at hx
    rw [List.mem_map] at hp
    obtain ⟨y, hy, rfl⟩ := hp
    rw [List.mem_filter] at hy
    obtain ⟨hy1, hy2⟩ := hy
    simp only [List.mem_cons, List.not_mem_nil, or_false] at hy1
    refine ⟨hy2, ?_, ?_⟩
    · unfold onBorder
      dsimp only
      rcases hy1 with rfl | rfl
      · exact Or.inr (Or.inr (Or.inl rfl))
      · exact Or.inr (Or.inr (Or.inr rfl))
    · by_cases hh : h = 0
      · exact Or.inr (Or.inr hh)
      · rcases hy1 with rfl | rfl
        · exact Or.inl ⟨hx, by omega⟩
        · exact Or.inl ⟨hx, by omega⟩
  · rw [List.mem_flatMap] at hp
    obtain ⟨y, hy, hp⟩ := hp
    rw [List.mem_map] at hy
    obtain ⟨i, hi, rfl⟩ := hy
    rw [List.mem_range] at hi
    rw [List.mem_map] at hp
    obtain ⟨x, hx, rfl⟩ := hp
    rw [List.mem_filter] at hx
    obtain ⟨hx1, hx2⟩ := hx
    simp only [List.mem_cons, List.not_mem_nil, or_false] at hx1
    refine ⟨hx2, ?_, ?_⟩
    · unfold onBorder
      dsimp only
      rcases hx1 with rfl | rfl
      · exact Or.inl rfl
      · exact Or.inr (Or.inl rfl)
    · by_cases hw : w = 0
      · exact Or.inr (Or.inl hw)
      · rcases hx1 with rfl | rfl
        · exact Or.inl ⟨by omega, by omega⟩
        · exact Or.inl ⟨by omega, by omega⟩

/-- Invariant of the mask: every in-bounds masked pixel is tolerance-reachable
from the border. -/
def MaskOk (g : Grid) (cfg : Config) (m : List Pos) : Prop :=
  ∀ p ∈ m, p.1 < width g → p.2 < height g → TolReach g cfg p

/-- Invariant of the queue: every queued pixel is in bounds and reachable, or
(in a degenerate image) has no neighbours at all. -/
def QueueOk (g : Grid) (cfg : Config) (q : List Pos) : Prop :=
  ∀ p ∈ q, (p.1 < width g ∧ p.2 < height g ∧ TolReach g cfg p) ∨
    nbrs (width g) (height g) p = []

/-- Folding the neighbour step over reachable-if-tolerant neighbours keeps
both invariants. -/
theorem foldNbrs_ok (g : Grid) (cfg : Config) :
    ∀ (l : List Pos) (st : List Pos × List Pos × List Pos),
      (∀ n ∈ l, n.1 < width g ∧ n.2 < height g ∧
        (withinTol cfg (pixAt g n.1 n.2) = true → TolReach g cfg n)) →
      MaskOk g cfg st.2.1 → QueueOk g cfg st.2.2 →
      MaskOk g cfg
        (l.foldl (bfsStepNbr fun s => withinTol cfg (pixAt g s.1 s.2)) st).2.1 ∧
      QueueOk g cfg
        (l.foldl (bfsStepNbr fun s => withinTol cfg (pixAt g s.1 s.2)) st).2.2 := by
  intro l
  induction l with
  | nil => intro st _ h1 h2; exact ⟨h1, h2⟩
  | cons n rest ih =>
    intro st hl h1 h2
    obtain ⟨hn1, hn2, hn3⟩ := hl n (List.mem_cons_self _ _)
    simp only [List.foldl_cons]
    apply ih
    · intro n' h'
      exact hl n' (List.mem_cons_of_mem _ h')
    · unfold bfsStepNbr
      split
      · exact h1
      · split
        · next htol =>
          intro p hp
          rcases List.mem_cons.1 hp with rfl | hp
          · intro _ _
            exact hn3 htol
          · exact h1 p hp
        · exact h1
    · unfold bfsStepNbr
      split
      · exact h2
      · split
        · next htol =>
          intro p hp
          rcases List.mem_append.1 hp with hp | hp
          · exact h2 p hp
          · rcases List.mem_singleton.1 hp with rfl
            exact Or.inl ⟨hn1, hn2, hn3 htol⟩
        · exact h2

/-- The BFS loop keeps the mask invariant for any amount of fuel. -/
theorem bfsLoop_ok (g : Grid) (cfg : Config) :
    ∀ (fuel : Nat) (queue vis msk : List Pos),
      MaskOk g cfg msk → QueueOk g cfg queue →
      MaskOk g cfg
        ((bfsLoop (fun s => withinTol cfg (pixAt g s.1 s.2))
          (width g) (height g) fuel queue vis msk).2) := by
  intro fuel
  induction fuel with
  | zero => intro queue vis msk h1 _; exact h1
  | succ fuel ih =>
    intro queue vis msk h1 h2
    cases queue with
    | nil => exact h1
    | cons c rest =>
      simp only [bfsLoop]
      have hc := h2 c (List.mem_cons_self _ _)
      have hl : ∀ n ∈ nbrs (width g) (height g) c,
          n.1 < width g ∧ n.2 < height g ∧
          (withinTol cfg (pixAt g n.1 n.2) = true → TolReach g cfg n) := by
        intro n hn
        obtain ⟨hb1, hb2, hadj⟩ := nbrs_mem hn
        refine ⟨hb1, hb2, fun htol => ?_⟩
        rcases hc with ⟨_, _, hc3⟩ | hc0
        · exact TolReach.step n c hc3 hadj hb1 hb2 htol
        · rw [hc0] at hn
          cases hn
      obtain ⟨hm, hq⟩ := foldNbrs_ok g cfg (nbrs (width g) (height g) c)
        (vis, msk, []) hl h1 (fun p hp => absurd hp (List.not_mem_nil p))
      apply ih
      · exact hm
      · intro p hp
        rcases List.mem_append.1 hp with hp | hp
        · exact h2 p (List.mem_cons_of_mem _ hp)
        · exact hq p hp

/-- Every pixel of the mask recorded by the seed loop came from the seed list
and is near-white. -/
theorem seedFold_mem {nearF : Pos → Bool} :
    ∀ (seeds : List Pos) (init : List Pos × List Pos) (p : Pos),
      p ∈ (seeds.foldl (seedStep nearF) init).2 →
      p ∈ init.2 ∨ (p ∈ seeds ∧ nearF p = true) := by
  intro seeds
  induction seeds with
  | nil => intro init p hp; exact Or.inl hp
  | cons s rest ih =>
    intro init p hp
    simp only [List.foldl_cons] at hp
    rcases ih _ p hp with hp' | hp'
    · unfold seedStep at hp'
      split at hp'
      · exact Or.inl hp'
      · split at hp'
        · next hnf =>
          rcases List.mem_cons.1 hp' with rfl | hp''
          · exact Or.inr ⟨List.mem_cons_self _ _, hnf⟩
          · exact Or.inl hp''
        · exact Or.inl hp'
    · exact Or.inr ⟨List.mem_cons_of_mem _ hp'.1, hp'.2⟩

/-- Soundness of the computed background mask: with a nonnegative tolerance,
every in-bounds masked pixel has a 4-connected within-tolerance path to the
border. -/
theorem bgMask_sound (g : Grid) (cfg : Config)
    (htol : 0 ≤ cfg.flood_fill_tolerance) :
    MaskOk g cfg (bgMask g cfg) := by
  unfold bgMask bgMaskCore
  dsimp only
  apply bfsLoop_ok
  · intro p hp hx hy
    rcases seedFold_mem _ _ p hp with hp' | ⟨hps, hpn⟩
    · cases hp'
    · obtain ⟨hnf, hb, _⟩ := borderSeeds_spec hps
      exact TolReach.base p hx hy hb (nearWhite_withinTol htol hnf)
  · intro p hp
    rw [List.mem_filter] at hp
    obtain ⟨hps, _⟩ := hp
    obtain ⟨hnf, hb, hbd⟩ := borderSeeds_spec hps
    rcases hbd with ⟨hb1, hb2⟩ | hd
    · exact Or.inl ⟨hb1, hb2, TolReach.base p hb1 hb2 hb
        (nearWhite_withinTol htol hnf)⟩
    · exact Or.inr (nbrs_degenerate hd p)

/-- Any tolerance-reachable pixel is itself within tolerance. -/
theorem tolReach_withinTol {g : Grid} {cfg : Config} {p : Pos}
    (h : TolReach g cfg p) : withinTol cfg (pixAt g p.1 p.2) = true := by
  cases h with
  | base _ _ _ _ ht => exact ht
  | step _ _ _ _ _ _ ht => exact ht

/-- C1: `remove_background` never masks a pixel that has no 4-connected path
of within-tolerance pixels to a border pixel; such pixels are returned with
their original alpha (and colour) untouched. -/
theorem removeBackground_preserves_unreachable (g : Grid) (cfg : Config)
    (p : Pos) (hrect : Rectangular g) (htol : 0 ≤ cfg.flood_fill_tolerance)
    (hno : ¬ TolReach g cfg p) :
    pixAt (removeBackground g cfg) p.1 p.2 = pixAt g p.1 p.2 := by
  by_cases hin : p.2 < g.length ∧ p.1 < (g.getD p.2 []).length
  · rw [(removeBackground_frame g cfg).2.2 p.1 p.2 hin.1 hin.2]
    have hwrow : (g.getD p.2 []).length = width g := by
      apply hrect
      have hg : g.getD p.2 [] = g[p.2] := List.getD_eq_getElem g [] hin.1
      rw [hg]
      exact List.getElem_mem hin.1
    have hm : ¬ ((p.1, p.2) : Pos) ∈ bgMask g cfg := by
      intro hm
      exact hno (bgMask_sound g cfg htol (p.1, p.2) hm (by omega) hin.1)
    rw [if_neg hm]
  · exact pixAt_removeBackground_oob g cfg p.1 p.2 hin

/-- A single dark pixel: not within tolerance, hence unreachable. -/
def c1grid : Grid := [[⟨0, 0, 0, 255⟩]]

/-- Witness for C1: the dark pixel of the 1 x 1 cell has no within-tolerance
path to the border (it is not within tolerance itself) and is preserved. -/
theorem removeBackground_preserves_unreachable_witness :
    pixAt (removeBackground c1grid defaultConfig) 0 0 = pixAt c1grid 0 0 :=
  removeBackground_preserves_unreachable c1grid defaultConfig (0, 0)
    (by unfold Rectangular; decide) (by decide)
    (fun hr => absurd (tolReach_withinTol hr) (by decide))

/-! ## C3: separator bands versus returned rectangles -/

/-- Pixel `(x, y)` lies inside rectangle `(rx, ry, rw, rh)`. -/
def inRect (r : Rect) (q : Pos) : Prop :=
  r.1 ≤ q.1 ∧ q.1 < r.1 + r.2.2.1 ∧ r.2.1 ≤ q.2 ∧ q.2 < r.2.1 + r.2.2.2

instance (r : Rect) (q : Pos) : Decidable (inRect r q) := by
  unfold inRect
  infer_instance

/-- An 11 x 23 sheet: row 0 is entirely dark, column 11 is entirely dark,
everything else white.  The row axis has the single detected band (0, 1)
but yields no gap interval (the leading interval is too thin and the trailing
interval check fails), so the detector falls back to the full row axis. -/
def c3grid : Grid :=
  (List.range 11).map fun y => (List.range 23).map fun x =>
    if y = 0 ∨ x = 11 then ⟨0, 0, 0, 255⟩ else ⟨255, 255, 255, 255⟩

set_option maxRecDepth 100000 in
/-- C3 fails on the code: on `c3grid` the separator-line strategy succeeds and
returns two rectangles spanning all rows, although row 0 belongs to the
detected dark row band `(0, 1)` (thickness 1 and at most 20): the pixel
`(0, 0)` lies inside the returned rectangle `(0, 0, 11, 11)` and inside that
band. -/
theorem detectSeparatorLines_band_leak :
    detectSeparatorLines c3grid defaultConfig =
      some [(0, 0, 11, 11), (12, 0, 11, 11)]
    ∧ (0, 0, 11, 11) ∈ detectCells c3grid defaultConfig
    ∧ inRect (0, 0, 11, 11) (0, 0)
    ∧ ((0, 1) ∈ (findBands (filledRowMask c3grid defaultConfig)).filter
        (fun b => decide ((b.2 : Int) - (b.1 : Int) ≤ 20))
      ∧ (0 : Nat) ≥ 0 ∧ (0 : Nat) < 1) := by
  refine ⟨by decide, by decide, by decide, by decide, by decide, by decide⟩

/-! ## C5: balance of the white-gap splits -/

/-- A balanced split list has every consecutive span at least a quarter of
the axis. -/
theorem splitsAreBalanced_spans :
    ∀ (splits : List Nat) (total : Nat), splitsAreBalanced splits total = true →
      ∀ iv ∈ pairs splits, (total : Int) ≤ 4 * ((iv.2 : Int) - (iv.1 : Int)) := by
  intro splits
  induction splits with
  | nil => intro total _ iv hiv; cases hiv
  | cons a rest ih =>
    cases rest with
    | nil => intro total _ iv hiv; cases hiv
    | cons b rest2 =>
      intro total hbal iv hiv
      simp only [splitsAreBalanced, Bool.and_eq_true, decide_eq_true_eq] at hbal
      rw [show pairs (a :: b :: rest2) = (a, b) :: pairs (b :: rest2) from rfl]
        at hiv
      rcases List.mem_cons.1 hiv with rfl | hiv
      · exact hbal.1
      · exact ih total hbal.2 iv hiv

/-- What a successful `tryGapCount` guarantees about its candidate. -/
theorem tryGapCount_some {sortedGaps : List (Nat × Nat)} {total n : Nat}
    {c : List (Nat × Nat)} (h : tryGapCount sortedGaps total n = some c) :
    splitsAreBalanced (gapsToSplits (some c) total) total = true
    ∧ (∀ x ∈ c, x ∈ sortedGaps) ∧ c.length = n
    ∧ List.Pairwise (fun a b => startAsc a b = true) c := by
  unfold tryGapCount at h
  split at h
  · exact absurd h (by simp)
  · next hlen =>
    dsimp only at h
    split at h
    · next hbal =>
      cases h
      refine ⟨hbal, ?_, ?_, ?_⟩
      · intro x hx
        have hx' : x ∈ sortedGaps.take n :=
          (List.mergeSort_perm _ _).mem_iff.1 hx
        exact List.take_subset _ _ hx'
      · rw [List.length_mergeSort, List.length_take]
        omega
      · exact List.sorted_mergeSort
          (fun a b c hab hbc => by
            simp only [startAsc, decide_eq_true_eq] at hab hbc ⊢
            omega)
          (fun a b => by
            simp only [startAsc, Bool.or_eq_true, decide_eq_true_eq]
            omega)
          (sortedGaps.take n)
    · exact absurd h (by simp)

/-- What a successful gap selection guarantees. -/
theorem selectBestGaps_some {gaps : List (Nat × Nat)} {total : Nat}
    {sel : List (Nat × Nat)} (h : selectBestGaps gaps total = some sel) :
    splitsAreBalanced (gapsToSplits (some sel) total) total = true
    ∧ (∀ x ∈ sel, x ∈ gaps) ∧ (sel.length = 2 ∨ sel.length = 1)
    ∧ List.Pairwise (fun a b => startAsc a b = true) sel := by
  unfold selectBestGaps at h
  cases gaps with
  | nil => exact absurd h (by simp)
  | cons g0 gs =>
    dsimp only at h
    cases htry : tryGapCount ((g0 :: gs).mergeSort widthDesc) total 2 with
    | some c =>
      rw [htry] at h
      cases h
      obtain ⟨hbal, hsub, hlen, hsort⟩ := tryGapCount_some htry
      refine ⟨hbal, ?_, Or.inl hlen, hsort⟩
      intro x hx
      exact (List.mergeSort_perm _ _).mem_iff.1 (hsub x hx)
    | none =>
      rw [htry] at h
      obtain ⟨hbal, hsub, hlen, hsort⟩ := tryGapCount_some h
      refine ⟨hbal, ?_, Or.inr hlen, hsort⟩
      intro x hx
      exact (List.mergeSort_perm _ _).mem_iff.1 (hsub x hx)

/-- C5: whenever the white-gap strategy selects gaps on an axis, every
resulting segment (leading and trailing included) is at least a quarter of
the axis length; and if no selection of 2 or of 1 gaps passes the balance
check, the axis is split into the single segment `[0, total]`. -/
theorem selectBestGaps_balance (gaps : List (Nat × Nat)) (total : Nat) :
    (∀ sel, selectBestGaps gaps total = some sel →
      ∀ iv ∈ pairs (gapsToSplits (some sel) total),
        (total : Int) ≤ 4 * ((iv.2 : Int) - (iv.1 : Int)))
    ∧ ((∀ c : List (Nat × Nat), (∀ x ∈ c, x ∈ gaps) →
        (c.length = 2 ∨ c.length = 1) →
        splitsAreBalanced (gapsToSplits (some c) total) total = false) →
      gapsToSplits (selectBestGaps gaps total) total = [0, total]) := by
  constructor
  · intro sel hsel iv hiv
    exact splitsAreBalanced_spans _ total (selectBestGaps_some hsel).1 iv hiv
  · intro hall
    have hnone : selectBestGaps gaps total = none := by
      cases hsel : selectBestGaps gaps total with
      | none => rfl
      | some sel =>
        obtain ⟨hbal, hsub, hlen, _⟩ := selectBestGaps_some hsel
        rw [hall sel hsub hlen] at hbal
        cases hbal
    rw [hnone]
    rfl

/-- Witness for C5: the selection `[(40, 60)]` on axis 100 is balanced, and
with only the narrow gap `(3, 5)` available no selection is balanced, so the
axis stays whole. -/
theorem selectBestGaps_balance_witness :
    (∀ iv ∈ pairs (gapsToSplits (some [(40, 60)]) 100),
      (100 : Int) ≤ 4 * ((iv.2 : Int) - (iv.1 : Int)))
    ∧ gapsToSplits (selectBestGaps [(3, 5)] 100) 100 = [0, 100] := by
  constructor
  · intro iv hiv
    refine (selectBestGaps_balance [(40, 60)] 100).1 [(40, 60)] ?_ iv hiv
    have h2 : tryGapCount [(40, 60)] 100 2 = none := by
      unfold tryGapCount
      norm_num
    have h1 : tryGapCount [(40, 60)] 100 1 = some [(40, 60)] := by
      unfold tryGapCount
      dsimp only
      rw [if_neg (by norm_num),
        show ([(40, 60)] : List (Nat × Nat)).take 1 = [(40, 60)] from rfl,
        List.mergeSort_singleton]
      decide
    unfold selectBestGaps
    dsimp only
    rw [List.mergeSort_singleton]
    simp only [h2, h1]
  · apply (selectBestGaps_balance [(3, 5)] 100).2
    intro c hsub hlen
    rcases hlen with h2 | h1
    · obtain ⟨x, y, rfl⟩ := List.length_eq_two.1 h2
      have hx : x = (3, 5) := by simpa using hsub x (by simp)
      have hy : y = (3, 5) := by simpa using hsub y (by simp)
      subst hx
      subst hy
      decide
    · obtain ⟨x, rfl⟩ := List.length_eq_one.1 h1
      have hx : x = (3, 5) := by simpa using hsub x (by simp)
      subst hx
      decide

/-! ## Structure of detected bands and intervals (claims C4 and C10) -/

/-- Well-formed band list: ordered, nonempty bands inside `[0, total]`. -/
def BandsOk (bs : List (Nat × Nat)) (total : Nat) : Prop :=
  List.Pairwise (fun a b => a.2 ≤ b.1) bs ∧ ∀ b ∈ bs, b.1 < b.2 ∧ b.2 ≤ total

/-- Invariant of the `_find_bands` loop. -/
theorem findBandsAux_ok : ∀ (l : List Bool) (i : Nat) (cur : Option Nat)
    (acc : List (Nat × Nat)),
    (∀ b ∈ acc, b.1 < b.2 ∧ b.2 ≤ i) →
    List.Pairwise (fun a b => a.2 ≤ b.1) acc →
    (∀ s, cur = some s → s < i ∧ ∀ b ∈ acc, b.2 ≤ s) →
    List.Pairwise (fun a b => a.2 ≤ b.1) (findBandsAux l i cur acc)
    ∧ ∀ b ∈ findBandsAux l i cur acc, b.1 < b.2 ∧ b.2 ≤ i + l.length := by
  intro l
  induction l with
  | nil =>
    intro i cur acc hacc hpw hcur
    cases cur with
    | none =>
      refine ⟨hpw, fun b hb => ⟨(hacc b hb).1, ?_⟩⟩
      have := (hacc b hb).2
      simp only [List.length_nil]
      omega
    | some s =>
      obtain ⟨hsi, hle⟩ := hcur s rfl
      constructor
      · rw [show findBandsAux [] i (some s) acc = acc ++ [(s, i)] from rfl,
          List.pairwise_append]
        refine ⟨hpw, List.pairwise_singleton _ _, ?_⟩
        intro a ha b hb
        rcases List.mem_singleton.1 hb with rfl
        exact hle a ha
      · intro b hb
        rw [show findBandsAux [] i (some s) acc = acc ++ [(s, i)] from rfl]
          at hb
        simp only [List.length_nil]
        rcases List.mem_append.1 hb with hb | hb
        · have := hacc b hb
          exact ⟨this.1, by omega⟩
        · rcases List.mem_singleton.1 hb with rfl
          exact ⟨hsi, by omega⟩
  | cons v rest ih =>
    intro i cur acc hacc hpw hcur
    cases cur with
    | none =>
      rw [show findBandsAux (v :: rest) i none acc =
          findBandsAux rest (i + 1) (if v then some i else none) acc from rfl]
      have h := ih (i + 1) (if v then some i else none) acc
        (fun b hb => ⟨(hacc b hb).1, by have := (hacc b hb).2; omega⟩) hpw
        (fun s' hs' => by
          split at hs'
          · cases hs'
            exact ⟨by omega, fun b hb => (hacc b hb).2⟩
          · cases hs')
      refine ⟨h.1, fun b hb => ?_⟩
      have := h.2 b hb
      simp only [List.length_cons]
      exact ⟨this.1, by omega⟩
    | some s =>
      obtain ⟨hsi, hle⟩ := hcur s rfl
      rw [show findBandsAux (v :: rest) i (some s) acc =
          if v then findBandsAux rest (i + 1) (some s) acc
          else findBandsAux rest (i + 1) none (acc ++ [(s, i)]) from rfl]
      split
      · have h := ih (i + 1) (some s) acc
          (fun b hb => ⟨(hacc b hb).1, by have := (hacc b hb).2; omega⟩) hpw
          (fun s' hs' => by cases hs'; exact ⟨by omega, hle⟩)
        refine ⟨h.1, fun b hb => ?_⟩
        have := h.2 b hb
        simp only [List.length_cons]
        exact ⟨this.1, by omega⟩
      · have hacc' : ∀ b ∈ acc ++ [(s, i)], b.1 < b.2 ∧ b.2 ≤ i + 1 := by
          intro b hb
          rcases List.mem_append.1 hb with hb | hb
          · have := hacc b hb
            exact ⟨this.1, by omega⟩
          · rcases List.mem_singleton.1 hb with rfl
            exact ⟨hsi, by omega⟩
        have hpw' : List.Pairwise (fun a b => a.2 ≤ b.1) (acc ++ [(s, i)]) := by
          rw [List.pairwise_append]
          refine ⟨hpw, List.pairwise_singleton _ _, ?_⟩
          intro a ha b hb
          rcases List.mem_singleton.1 hb with rfl
          exact hle a ha
        have h := ih (i + 1) none (acc ++ [(s, i)]) hacc' hpw'
          (fun s' hs' => by cases hs')
        refine ⟨h.1, fun b hb => ?_⟩
        have := h.2 b hb
        simp only [List.length_cons]
        exact ⟨this.1, by omega⟩

/-- The bands found in a mask are ordered, nonempty and inside the mask. -/
theorem findBands_ok (mask : List Bool) : BandsOk (findBands mask) mask.length := by
  unfold findBands
  have h := findBandsAux_ok mask 0 none [] (by simp) List.Pairwise.nil
    (fun s hs => by cases hs)
  exact ⟨h.1, fun b hb => by have := h.2 b hb; simpa using this⟩

/-- Filtering preserves band well-formedness. -/
theorem BandsOk.filter {bs : List (Nat × Nat)} {total : Nat}
    (h : BandsOk bs total) (p : Nat × Nat → Bool) :
    BandsOk (bs.filter p) total :=
  ⟨h.1.sublist (List.filter_sublist _), fun b hb => h.2 b (List.mem_of_mem_filter hb)⟩

/-- In a pairwise-ordered list every element is the last one or related to it. -/
theorem pairwise_getLast {α : Type} {R : α → α → Prop} :
    ∀ (l : List α) (hne : l ≠ []), List.Pairwise R l →
      ∀ c ∈ l, c = l.getLast hne ∨ R c (l.getLast hne) := by
  intro l
  induction l with
  | nil => intro hne; cases hne rfl
  | cons a rest ih =>
    intro hne hpw c hc
    cases rest with
    | nil =>
      rcases List.mem_singleton.1 hc with rfl
      exact Or.inl rfl
    | cons b rest2 =>
      rw [List.getLast_cons (List.cons_ne_nil b rest2)]
      rcases List.mem_cons.1 hc with rfl | hc
      · exact Or.inr ((List.pairwise_cons.1 hpw).1 _ (List.getLast_mem _))
      · exact ih (List.cons_ne_nil b rest2) (List.pairwise_cons.1 hpw).2 c hc

/-- Each between-bands interval starts at some band's end and ends at some
band's start. -/
theorem gapsBetween_mem : ∀ (bs : List (Nat × Nat)) (iv : Nat × Nat),
    iv ∈ gapsBetween bs →
    (∃ a ∈ bs, iv.1 = a.2) ∧ ∃ c ∈ bs, iv.2 = c.1 := by
  intro bs
  induction bs with
  | nil => intro iv hiv; cases hiv
  | cons b1 rest ih =>
    cases rest with
    | nil => intro iv hiv; cases hiv
    | cons b2 rest2 =>
      intro iv hiv
      rw [show gapsBetween (b1 :: b2 :: rest2) =
          (if (10 : Int) < (b2.1 : Int) - (b1.2 : Int) then [(b1.2, b2.1)]
            else []) ++ gapsBetween (b2 :: rest2) from rfl] at hiv
      rcases List.mem_append.1 hiv with hiv | hiv
      · split at hiv
        · rcases List.mem_singleton.1 hiv with rfl
          exact ⟨⟨b1, List.mem_cons_self _ _, rfl⟩,
            ⟨b2, List.mem_cons_of_mem _ (List.mem_cons_self _ _), rfl⟩⟩
        · cases hiv
      · obtain ⟨⟨a, ha, h1⟩, ⟨c, hc, h2⟩⟩ := ih iv hiv
        exact ⟨⟨a, List.mem_cons_of_mem _ ha, h1⟩,
          ⟨c, List.mem_cons_of_mem _ hc, h2⟩⟩

/-- The between-bands intervals are pairwise ordered. -/
theorem gapsBetween_pairwise : ∀ (bs : List (Nat × Nat)),
    List.Pairwise (fun a b => a.2 ≤ b.1) bs → (∀ b ∈ bs, b.1 < b.2) →
    List.Pairwise (fun i j : Nat × Nat => i.2 ≤ j.1) (gapsBetween bs) := by
  intro bs
  induction bs with
  | nil => intro _ _; exact List.Pairwise.nil
  | cons b1 rest ih =>
    intro hpw hlt
    cases rest with
    | nil => exact List.Pairwise.nil
    | cons b2 rest2 =>
      rw [show gapsBetween (b1 :: b2 :: rest2) =
          (if (10 : Int) < (b2.1 : Int) - (b1.2 : Int) then [(b1.2, b2.1)]
            else []) ++ gapsBetween (b2 :: rest2) from rfl,
        List.pairwise_append]
      refine ⟨?_, ih (List.pairwise_cons.1 hpw).2
        (fun b hb => hlt b (List.mem_cons_of_mem _ hb)), ?_⟩
      · split
        · exact List.pairwise_singleton _ _
        · exact List.Pairwise.nil
      · intro a ha iv hiv
        obtain ⟨⟨c, hc, hc1⟩, _⟩ := gapsBetween_mem _ iv hiv
        have ha2 : a.2 = b2.1 := by
          revert ha
          split
          · intro ha
            rcases List.mem_singleton.1 ha with rfl
            rfl
          · intro ha
            cases ha
        rw [ha2, hc1]
        rcases List.mem_cons.1 hc with rfl | hc
        · exact le_of_lt (hlt c (List.mem_cons_of_mem _ (List.mem_cons_self _ _)))
        · have h1 : b2.2 ≤ c.1 :=
            (List.pairwise_cons.1 (List.pairwise_cons.1 hpw).2).1 c hc
          have h2 : b2.1 < b2.2 :=
            hlt b2 (List.mem_cons_of_mem _ (List.mem_cons_self _ _))
          have h3 : c.1 < c.2 :=
            hlt c (List.mem_cons_of_mem _ (List.mem_cons_of_mem _ hc))
          omega

/-- Well-formed interval list: pairwise ordered, all ends inside the axis. -/
def IvsOk (ivs : List (Nat × Nat)) (total : Nat) : Prop :=
  List.Pairwise (fun a b => a.2 ≤ b.1) ivs ∧ ∀ iv ∈ ivs, iv.2 ≤ total


/-- The glued interval list of a nonempty well-formed band list is well
formed: ordered and inside the axis. -/
theorem gapIntervalsOf_ok {b : Nat × Nat} {rest : List (Nat × Nat)}
    {total : Nat}
    (hpw : List.Pairwise (fun a c => a.2 ≤ c.1) (b :: rest))
    (hbd : ∀ x ∈ b :: rest, x.1 < x.2 ∧ x.2 ≤ total) :
    IvsOk (gapIntervalsOf b rest total) total := by
  have hblt : ∀ x ∈ b :: rest, x.1 < x.2 := fun x hx => (hbd x hx).1
  have hbub : ∀ x ∈ b :: rest, x.2 ≤ total := fun x hx => (hbd x hx).2
  have hhead : ∀ x ∈ b :: rest, b.1 ≤ x.1 := by
    intro x hx
    rcases List.mem_cons.1 hx with rfl | hx
    · exact le_refl _
    · have h1 : b.2 ≤ x.1 := (List.pairwise_cons.1 hpw).1 x hx
      have h2 : b.1 < b.2 := hblt b (List.mem_cons_self _ _)
      omega
  have hlastm := List.getLast_mem (List.cons_ne_nil b rest)
  have hc2last : ∀ c ∈ b :: rest,
      c.1 ≤ ((b :: rest).getLast (List.cons_ne_nil b rest)).2 ∧
      c.2 ≤ ((b :: rest).getLast (List.cons_ne_nil b rest)).2 := by
    intro c hc
    rcases pairwise_getLast (b :: rest) (List.cons_ne_nil b rest) hpw c hc
      with heq | hrel
    · have := hblt c hc
      rw [heq] at this ⊢
      omega
    · have h1 := hblt _ hlastm
      have h2 := hblt c hc
      omega
  have hlead : ∀ a ∈ (if 10 < b.1 then [((0 : Nat), b.1)] else []),
      a = ((0 : Nat), b.1) := by
    split
    · intro a ha
      exact List.mem_singleton.1 ha
    · intro a ha
      cases ha
  have htrail : ∀ a ∈ (if (((b :: rest).getLast
        (List.cons_ne_nil b rest)).2 : Int) < (total : Int) - 10 then
        [(((b :: rest).getLast (List.cons_ne_nil b rest)).2, total)]
      else []),
      a = (((b :: rest).getLast (List.cons_ne_nil b rest)).2, total) := by
    split
    · intro a ha
      exact List.mem_singleton.1 ha
    · intro a ha
      cases ha
  have hmid1 : ∀ iv ∈ gapsBetween (b :: rest), b.1 ≤ iv.1 := by
    intro iv hiv
    obtain ⟨⟨c, hc, hc1⟩, _⟩ := gapsBetween_mem _ iv hiv
    have h1 := hhead c hc
    have h2 := hblt c hc
    omega
  have hmid2 : ∀ iv ∈ gapsBetween (b :: rest),
      iv.2 ≤ ((b :: rest).getLast (List.cons_ne_nil b rest)).2 ∧
      iv.2 ≤ total := by
    intro iv hiv
    obtain ⟨_, ⟨c, hc, hc2⟩⟩ := gapsBetween_mem _ iv hiv
    have h1 := hc2last c hc
    have h2 := hblt c hc
    have h3 := hbub c hc
    omega
  unfold gapIntervalsOf
  constructor
  · rw [List.pairwise_append, List.pairwise_append]
    refine ⟨⟨?_, gapsBetween_pairwise _ hpw hblt, ?_⟩, ?_, ?_⟩
    · split
      · exact List.pairwise_singleton _ _
      · exact List.Pairwise.nil
    · intro a ha iv hiv
      rw [hlead a ha]
      exact hmid1 iv hiv
    · split
      · exact List.pairwise_singleton _ _
      · exact List.Pairwise.nil
    · intro a ha t ht
      rw [htrail t ht]
      rcases List.mem_append.1 ha with ha | ha
      · rw [hlead a ha]
        have := (hc2last b (List.mem_cons_self _ _)).1
        dsimp only
        omega
      · exact (hmid2 a ha).1
  · intro iv hiv
    rcases List.mem_append.1 hiv with hiv | hiv
    · rcases List.mem_append.1 hiv with hiv | hiv
      · rw [hlead iv hiv]
        have h1 := hblt b (List.mem_cons_self _ _)
        have h2 := hbub b (List.mem_cons_self _ _)
        dsimp only
        omega
      · exact (hmid2 iv hiv).2
    · rw [htrail iv hiv]

/-- The gap intervals built from well-formed bands are well formed. -/
theorem bandsToGapIntervals_ok {bands : List (Nat × Nat)} {total : Nat}
    (hb : BandsOk bands total) {ivs : List (Nat × Nat)}
    (h : bandsToGapIntervals bands total = some ivs) : IvsOk ivs total := by
  obtain ⟨hpw, hbd⟩ := hb
  unfold bandsToGapIntervals at h
  cases bands with
  | nil => cases h
  | cons b rest =>
    dsimp only at h
    split at h
    · cases h
    · cases h
      exact gapIntervalsOf_ok hpw hbd

/-- The row or column intervals used by the separator strategy (including the
whole-axis fallback) are well formed. -/
theorem intervalsOf_ok {bands : List (Nat × Nat)} {total : Nat}
    (hb : BandsOk bands total) :
    IvsOk ((bandsToGapIntervals bands total).getD [(0, total)]) total := by
  cases h : bandsToGapIntervals bands total with
  | none =>
    refine ⟨List.pairwise_singleton _ _, ?_⟩
    intro iv hiv
    rcases List.mem_singleton.1 hiv with rfl
    exact le_refl total
  | some ivs => simpa using bandsToGapIntervals_ok hb h

/-- Two rectangles sharing no pixel. -/
def disjointRect (r1 r2 : Rect) : Prop :=
  ∀ q : Pos, ¬ (inRect r1 q ∧ inRect r2 q)

/-- Membership in the cell product. -/
theorem cellsOf_mem {hIvs vIvs : List (Nat × Nat)} {r : Rect}
    (hr : r ∈ cellsOf hIvs vIvs) :
    ∃ yi ∈ hIvs, ∃ xi ∈ vIvs,
      (10 : Int) < (xi.2 : Int) - (xi.1 : Int) ∧
      (10 : Int) < (yi.2 : Int) - (yi.1 : Int) ∧
      r = (xi.1, yi.1, xi.2 - xi.1, yi.2 - yi.1) := by
  unfold cellsOf at hr
  rw [List.mem_flatMap] at hr
  obtain ⟨yi, hyi, hr⟩ := hr
  rw [List.mem_filterMap] at hr
  obtain ⟨xi, hxi, hr⟩ := hr
  split at hr
  · next hcond =>
    cases hr
    exact ⟨yi, hyi, xi, hxi, hcond.1, hcond.2, rfl⟩
  · cases hr

/-- Every produced cell is wider and taller than 10 and inside the axes. -/
theorem cellsOf_rect_ok {hIvs vIvs : List (Nat × Nat)} {totalH totalW : Nat}
    (hH : IvsOk hIvs totalH) (hV : IvsOk vIvs totalW) :
    ∀ r ∈ cellsOf hIvs vIvs,
      r.1 + r.2.2.1 ≤ totalW ∧ r.2.1 + r.2.2.2 ≤ totalH ∧
      10 < r.2.2.1 ∧ 10 < r.2.2.2 := by
  intro r hr
  obtain ⟨yi, hyi, xi, hxi, hx, hy, rfl⟩ := cellsOf_mem hr
  have hxv := hV.2 xi hxi
  have hyv := hH.2 yi hyi
  dsimp only
  omega

/-- Cells built from pairwise-ordered row and column intervals are pairwise
pixel-disjoint. -/
theorem cellsOf_pairwise {hIvs vIvs : List (Nat × Nat)}
    (hH : List.Pairwise (fun a b : Nat × Nat => a.2 ≤ b.1) hIvs)
    (hV : List.Pairwise (fun a b : Nat × Nat => a.2 ≤ b.1) vIvs) :
    List.Pairwise disjointRect (cellsOf hIvs vIvs) := by
  unfold cellsOf
  induction hH with
  | nil => exact List.Pairwise.nil
  | @cons yi rest hrel hpw ih =>
    rw [List.flatMap_cons, List.pairwise_append]
    refine ⟨?_, ih, ?_⟩
    · refine List.Pairwise.filterMap _ ?_ hV
      intro a a' haa' r1 hr1 r2 hr2
      rw [Option.mem_def] at hr1 hr2
      revert hr1 hr2
      split
      · next hg1 =>
        split
        · next hg2 =>
          intro hr1 hr2
          cases hr1
          cases hr2
          intro q hq
          obtain ⟨hq1, hq2⟩ := hq
          unfold inRect at hq1 hq2
          dsimp only at hq1 hq2
          omega
        · intro _ hr2
          cases hr2
      · intro hr1
        cases hr1
    · intro r1 hr1 r2 hr2
      rw [List.mem_filterMap] at hr1
      obtain ⟨xi, hxi, hfx⟩ := hr1
      rw [List.mem_flatMap] at hr2
      obtain ⟨yj, hyj, hr2⟩ := hr2
      rw [List.mem_filterMap] at hr2
      obtain ⟨xj, hxj, hfx2⟩ := hr2
      have hyy : yi.2 ≤ yj.1 := hrel yj hyj
      revert hfx hfx2
      split
      · next hg1 =>
        split
        · next hg2 =>
          intro hfx hfx2
          cases hfx
          cases hfx2
          intro q hq
          obtain ⟨hq1, hq2⟩ := hq
          unfold inRect at hq1 hq2
          dsimp only at hq1 hq2
          omega
        · intro _ hfx2
          cases hfx2
      · intro hfx
        cases hfx

/-- Two gaps occupy disjoint stretches of the axis (in either order). -/
def SymDisj (a b : Nat × Nat) : Prop := a.2 ≤ b.1 ∨ b.2 ≤ a.1

/-- Disjointness of gaps is symmetric. -/
theorem symDisj_symm {a b : Nat × Nat} (h : SymDisj a b) : SymDisj b a :=
  h.elim Or.inr Or.inl

/-- A candidate kept by `tryGapCount` inherits pairwise gap disjointness. -/
theorem tryGapCount_pairwise {sortedGaps : List (Nat × Nat)} {total n : Nat}
    {c : List (Nat × Nat)} (hsym : List.Pairwise SymDisj sortedGaps)
    (h : tryGapCount sortedGaps total n = some c) :
    List.Pairwise SymDisj c := by
  unfold tryGapCount at h
  split at h
  · exact absurd h (by simp)
  · dsimp only at h
    split at h
    · cases h
      have h1 : List.Pairwise SymDisj (sortedGaps.take n) :=
        hsym.sublist (List.take_sublist n sortedGaps)
      exact ((List.mergeSort_perm (sortedGaps.take n) startAsc).pairwise_iff
        symDisj_symm).2 h1
    · exact absurd h (by simp)

/-- A selection returned by `_select_best_gaps` inherits pairwise gap
disjointness. -/
theorem selectBestGaps_pairwise {gaps : List (Nat × Nat)} {total : Nat}
    {sel : List (Nat × Nat)} (hsym : List.Pairwise SymDisj gaps)
    (h : selectBestGaps gaps total = some sel) :
    List.Pairwise SymDisj sel := by
  unfold selectBestGaps at h
  cases gaps with
  | nil => exact absurd h (by simp)
  | cons g0 gs =>
    dsimp only at h
    have hsort : List.Pairwise SymDisj ((g0 :: gs).mergeSort widthDesc) :=
      ((List.mergeSort_perm (g0 :: gs) widthDesc).pairwise_iff
        symDisj_symm).2 hsym
    cases htry : tryGapCount ((g0 :: gs).mergeSort widthDesc) total 2 with
    | some c =>
      rw [htry] at h
      cases h
      exact tryGapCount_pairwise hsort htry
    | none =>
      rw [htry] at h
      exact tryGapCount_pairwise hsort h

/-- A start-sorted list of pairwise-disjoint nonempty gaps is chained. -/
theorem sorted_symDisj_chain {sel : List (Nat × Nat)}
    (hsort : List.Pairwise (fun a b => startAsc a b = true) sel)
    (hsym : List.Pairwise SymDisj sel)
    (hlt : ∀ b ∈ sel, b.1 < b.2) :
    List.Pairwise (fun a b : Nat × Nat => a.2 ≤ b.1) sel := by
  refine List.Pairwise.imp_of_mem ?_ (hsort.and hsym)
  intro a b ha hb hr
  obtain ⟨h1, h2⟩ := hr
  simp only [startAsc, decide_eq_true_eq] at h1
  have h3 := hlt a ha
  have h4 := hlt b hb
  unfold SymDisj at h2
  omega

/-- Both endpoints of a consecutive pair belong to the split list. -/
theorem pairs_mem : ∀ (l : List Nat) (iv : Nat × Nat), iv ∈ pairs l →
    iv.1 ∈ l ∧ iv.2 ∈ l := by
  intro l
  induction l with
  | nil => intro iv hiv; cases hiv
  | cons a rest ih =>
    cases rest with
    | nil => intro iv hiv; cases hiv
    | cons b rest2 =>
      intro iv hiv
      rw [show pairs (a :: b :: rest2) = (a, b) :: pairs (b :: rest2) from rfl]
        at hiv
      rcases List.mem_cons.1 hiv with rfl | hiv
      · exact ⟨List.mem_cons_self _ _,
          List.mem_cons_of_mem _ (List.mem_cons_self _ _)⟩
      · obtain ⟨h1, h2⟩ := ih iv hiv
        exact ⟨List.mem_cons_of_mem _ h1, List.mem_cons_of_mem _ h2⟩

/-- Consecutive pairs of a sorted split list are pairwise ordered. -/
theorem pairs_pairwise : ∀ (l : List Nat), List.Pairwise (· ≤ ·) l →
    List.Pairwise (fun i j : Nat × Nat => i.2 ≤ j.1) (pairs l) := by
  intro l
  induction l with
  | nil => intro _; exact List.Pairwise.nil
  | cons a rest ih =>
    intro hpw
    cases rest with
    | nil => exact List.Pairwise.nil
    | cons b rest2 =>
      rw [show pairs (a :: b :: rest2) = (a, b) :: pairs (b :: rest2) from rfl,
        List.pairwise_cons]
      refine ⟨?_, ih (List.pairwise_cons.1 hpw).2⟩
      intro iv hiv
      have h1 := (pairs_mem _ iv hiv).1
      dsimp only
      rcases List.mem_cons.1 h1 with heq | h1
      · omega
      · exact (List.pairwise_cons.1 (List.pairwise_cons.1 hpw).2).1 _ h1

/-- Sorted bounded splits give well-formed intervals. -/
theorem pairs_ivsOk {splits : List Nat} {total : Nat}
    (h1 : List.Pairwise (· ≤ ·) splits) (h2 : ∀ s ∈ splits, s ≤ total) :
    IvsOk (pairs splits) total :=
  ⟨pairs_pairwise _ h1, fun _ hiv => h2 _ (pairs_mem _ _ hiv).2⟩

/-- The degenerate split list `[0, total]` is sorted and bounded. -/
theorem splits_default_ok (total : Nat) :
    List.Pairwise (· ≤ ·) ([0, total] : List Nat)
    ∧ ∀ s ∈ ([0, total] : List Nat), s ≤ total := by
  constructor
  · rw [List.pairwise_cons]
    refine ⟨?_, List.pairwise_singleton _ _⟩
    intro s _
    exact Nat.zero_le s
  · intro s hs
    rcases List.mem_cons.1 hs with rfl | hs
    · exact Nat.zero_le _
    · rcases List.mem_singleton.1 hs with rfl
      exact le_refl _

/-- Gap bands found by `_find_gap_bands` on a full-axis mask are well formed. -/
theorem findGapBands_ok (mask : List Bool) (minW : Int) (total : Nat)
    (hlen : mask.length = total) :
    BandsOk (findGapBands mask minW total) total := by
  unfold findGapBands
  have h := findBands_ok mask
  rw [hlen] at h
  exact h.filter _

/-- The split positions produced for one axis of the white-gap strategy are
sorted and stay inside the axis. -/
theorem selectSplits_ok {gaps : List (Nat × Nat)} {total : Nat}
    (hb : BandsOk gaps total) :
    List.Pairwise (· ≤ ·) (gapsToSplits (selectBestGaps gaps total) total)
    ∧ ∀ s ∈ gapsToSplits (selectBestGaps gaps total) total, s ≤ total := by
  cases hsel : selectBestGaps gaps total with
  | none => exact splits_default_ok total
  | some sel =>
    obtain ⟨_, hsub, _, hsort⟩ := selectBestGaps_some hsel
    have hsym : List.Pairwise SymDisj sel :=
      selectBestGaps_pairwise (hb.1.imp fun h => Or.inl h) hsel
    have hlt : ∀ b ∈ sel, b.1 < b.2 := fun b hb2 => (hb.2 b (hsub b hb2)).1
    have hub : ∀ b ∈ sel, b.2 ≤ total := fun b hb2 => (hb.2 b (hsub b hb2)).2
    have hchain : List.Pairwise (fun a b : Nat × Nat => a.2 ≤ b.1) sel :=
      sorted_symDisj_chain hsort hsym hlt
    cases sel with
    | nil => exact splits_default_ok total
    | cons s0 srest =>
      rw [show gapsToSplits (some (s0 :: srest)) total =
          0 :: ((s0 :: srest).map (fun b => (b.1 + b.2) / 2) ++ [total])
        from rfl]
      have hmapub : ∀ m ∈ (s0 :: srest).map (fun b => (b.1 + b.2) / 2),
          m ≤ total := by
        intro m hm
        rw [List.mem_map] at hm
        obtain ⟨b, hb2, rfl⟩ := hm
        have h1 := hlt b hb2
        have h2 := hub b hb2
        omega
      constructor
      · rw [List.pairwise_cons]
        constructor
        · intro s _
          exact Nat.zero_le s
        · rw [List.pairwise_append]
          refine ⟨?_, List.pairwise_singleton _ _, ?_⟩
          · rw [List.pairwise_map]
            refine List.Pairwise.imp_of_mem ?_ hchain
            intro a b ha hb2 hr
            have h1 := hlt a ha
            have h2 := hlt b hb2
            omega
          · intro m hm t ht
            rcases List.mem_singleton.1 ht with rfl
            exact hmapub m hm
      · intro s hs
        rcases List.mem_cons.1 hs with rfl | hs
        · exact Nat.zero_le _
        · rcases List.mem_append.1 hs with hs | hs
          · exact hmapub s hs
          · rcases List.mem_singleton.1 hs with rfl
            exact le_refl _

/-- The row masks of both strategies span the height of the image. -/
theorem filledRowMask_length (g : Grid) (cfg : Config) :
    (filledRowMask g cfg).length = height g := by
  simp [filledRowMask]

/-- The column masks of both strategies span the width of the image. -/
theorem filledColMask_length (g : Grid) (cfg : Config) :
    (filledColMask g cfg).length = width g := by
  simp [filledColMask]

/-- The white-gap row profile spans the height of the image. -/
theorem rowGapMask_length (g : Grid) (cfg : Config) :
    (rowGapMask g cfg).length = height g := by
  simp [rowGapMask]

/-- The white-gap column profile spans the width of the image. -/
theorem colGapMask_length (g : Grid) (cfg : Config) :
    (colGapMask g cfg).length = width g := by
  simp [colGapMask]

/-- Rectangles returned by the separator-line strategy are inside the image,
wider and taller than 10, and pairwise pixel-disjoint. -/
theorem sepLines_cells_ok {g : Grid} {cfg : Config} {cs : List Rect}
    (h : detectSeparatorLines g cfg = some cs) :
    (∀ r ∈ cs, r.1 + r.2.2.1 ≤ width g ∧ r.2.1 + r.2.2.2 ≤ height g ∧
      10 < r.2.2.1 ∧ 10 < r.2.2.2)
    ∧ List.Pairwise disjointRect cs := by
  unfold detectSeparatorLines at h
  dsimp only at h
  split at h
  · exact absurd h (by simp)
  · split at h
    · cases h
      have hbH : BandsOk ((findBands (filledRowMask g cfg)).filter fun b =>
          decide ((b.2 : Int) - (b.1 : Int) ≤ 20)) (height g) := by
        have h0 := findBands_ok (filledRowMask g cfg)
        rw [filledRowMask_length] at h0
        exact h0.filter _
      have hbV : BandsOk ((findBands (filledColMask g cfg)).filter fun b =>
          decide ((b.2 : Int) - (b.1 : Int) ≤ 20)) (width g) := by
        have h0 := findBands_ok (filledColMask g cfg)
        rw [filledColMask_length] at h0
        exact h0.filter _
      have hH := intervalsOf_ok hbH
      have hV := intervalsOf_ok hbV
      exact ⟨fun r hr => cellsOf_rect_ok hH hV r hr, cellsOf_pairwise hH.1 hV.1⟩
    · exact absurd h (by simp)

/-- Rectangles returned by the white-gap strategy are inside the image,
wider and taller than 10, and pairwise pixel-disjoint. -/
theorem whiteGaps_cells_ok {g : Grid} {cfg : Config} {cs : List Rect}
    (h : detectWhiteGaps g cfg = some cs) :
    (∀ r ∈ cs, r.1 + r.2.2.1 ≤ width g ∧ r.2.1 + r.2.2.2 ≤ height g ∧
      10 < r.2.2.1 ∧ 10 < r.2.2.2)
    ∧ List.Pairwise disjointRect cs := by
  unfold detectWhiteGaps at h
  dsimp only at h
  split at h
  · exact absurd h (by simp)
  · split at h
    · exact absurd h (by simp)
    · split at h
      · cases h
        have hgH : BandsOk (findGapBands (rowGapMask g cfg)
            cfg.gap_min_width (height g)) (height g) :=
          findGapBands_ok _ _ _ (rowGapMask_length g cfg)
        have hgV : BandsOk (findGapBands (colGapMask g cfg)
            cfg.gap_min_width (width g)) (width g) :=
          findGapBands_ok _ _ _ (colGapMask_length g cfg)
        obtain ⟨hp1, hb1⟩ := selectSplits_ok hgH
        obtain ⟨hp2, hb2⟩ := selectSplits_ok hgV
        have hH := pairs_ivsOk hp1 hb1
        have hV := pairs_ivsOk hp2 hb2
        unfold buildCells
        exact ⟨fun r hr => cellsOf_rect_ok hH hV r hr,
          cellsOf_pairwise hH.1 hV.1⟩
      · exact absurd h (by simp)

/-- A single white pixel: both strategies fail, the fallback covers the whole
(tiny) image. -/
def whiteCell : Grid := [[⟨255, 255, 255, 255⟩]]

/-- Counterexample to C4 as stated: on the 1 x 1 white image the detector
returns the fallback rectangle `(0, 0, 1, 1)`, whose width is not above 10. -/
theorem detectCells_minsize_counterexample :
    (0, 0, 1, 1) ∈ detectCells whiteCell defaultConfig
    ∧ ¬ (10 < (1 : Nat)) := by
  exact ⟨by decide, by decide⟩

/-- C4 (amended): every rectangle returned by `detect_cells` lies fully
inside the source grid; each is wider and taller than 10 pixels unless it is
the single-cell fallback rectangle `(0, 0, W, H)`, which covers the whole
image and can be smaller. -/
theorem detectCells_bounds (g : Grid) (cfg : Config) :
    ∀ r ∈ detectCells g cfg,
      (r.1 + r.2.2.1 ≤ width g ∧ r.2.1 + r.2.2.2 ≤ height g) ∧
      ((10 < r.2.2.1 ∧ 10 < r.2.2.2) ∨ r = (0, 0, width g, height g)) := by
  intro r hr
  cases hs : detectSeparatorLines g cfg with
  | some cs =>
    have he : detectCells g cfg = cs := by unfold detectCells; rw [hs]
    rw [he] at hr
    obtain ⟨h1, h2, h3, h4⟩ := (sepLines_cells_ok hs).1 r hr
    exact ⟨⟨h1, h2⟩, Or.inl ⟨h3, h4⟩⟩
  | none =>
    cases hw : detectWhiteGaps g cfg with
    | some cs =>
      have he : detectCells g cfg = cs := by unfold detectCells; rw [hs, hw]
      rw [he] at hr
      obtain ⟨h1, h2, h3, h4⟩ := (whiteGaps_cells_ok hw).1 r hr
      exact ⟨⟨h1, h2⟩, Or.inl ⟨h3, h4⟩⟩
    | none =>
      have he : detectCells g cfg = [(0, 0, width g, height g)] := by
        unfold detectCells; rw [hs, hw]
      rw [he] at hr
      rcases List.mem_singleton.1 hr with rfl
      refine ⟨⟨?_, ?_⟩, Or.inr rfl⟩
      · simp
      · simp

/-- Witness for C4 at the concrete fallback case. -/
theorem detectCells_bounds_witness :
    ((0 : Nat) + 1 ≤ width whiteCell ∧ (0 : Nat) + 1 ≤ height whiteCell) ∧
    ((10 < (1 : Nat) ∧ 10 < (1 : Nat)) ∨
      ((0, 0, 1, 1) : Rect) = (0, 0, width whiteCell, height whiteCell)) :=
  detectCells_bounds whiteCell defaultConfig (0, 0, 1, 1) (by decide)

/-- C10: the rectangles returned by `detect_cells` are pairwise disjoint —
no pixel belongs to two returned rectangles (for each strategy and for the
fallback). -/
theorem detectCells_disjoint (g : Grid) (cfg : Config) :
    List.Pairwise disjointRect (detectCells g cfg) := by
  cases hs : detectSeparatorLines g cfg with
  | some cs =>
    have he : detectCells g cfg = cs := by unfold detectCells; rw [hs]
    rw [he]
    exact (sepLines_cells_ok hs).2
  | none =>
    cases hw : detectWhiteGaps g cfg with
    | some cs =>
      have he : detectCells g cfg = cs := by unfold detectCells; rw [hs, hw]
      rw [he]
      exact (whiteGaps_cells_ok hw).2
    | none =>
      have he : detectCells g cfg = [(0, 0, width g, height g)] := by
        unfold detectCells; rw [hs, hw]
      rw [he]
      exact List.pairwise_singleton _ _
